import Mathlib

/-!
Shallow embedding of `convert_font.py` (FontWidthConverter): a converter that
rewrites a font definition's glyph providers into width-only `space`
providers.  Python floats are modelled as exact rationals, Python dicts as
insertion-ordered association lists, and the I/O collaborators (resource
resolution, JSON read/write, freetype, image decoding, archive access) by the
decoded data they hand to the core, per the module's external interfaces.
-/

/-- Python numeric value as stored in a JSON advance map: either an `int` or
a `float`.  Floats are modelled as exact rationals. -/
inductive JNum where
  | jint (n : ℤ)
  | jfloat (q : ℚ)
deriving DecidableEq

/-- Numeric value of a `JNum`. -/
def JNum.val : JNum → ℚ
  | .jint n => n
  | .jfloat q => q

/-- Python `int(x)` on a number: truncation toward zero. -/
def pyTrunc (q : ℚ) : ℤ := q.num.tdiv q.den

/-- Python `x.is_integer()`: whether the numeric value is mathematically
whole. -/
def JNum.isInteger : JNum → Bool
  | .jint _ => true
  | .jfloat q => q.den == 1

/-- Representation check: whether the value is stored as a Python `int`. -/
def JNum.isIntRepr : JNum → Bool
  | .jint _ => true
  | .jfloat _ => false

/-- Advance map: a Python `dict` from character to numeric advance, modelled
as an insertion-ordered association list with unique keys. -/
abbrev AdvMap := List (Char × JNum)

/-- Keys of an advance map, in insertion order. -/
def keysOf (m : AdvMap) : List Char := m.map Prod.fst

/-- Python `m[k] = v` on a dict: replace in place if the key is present,
otherwise append at the end. -/
def setKey (m : AdvMap) (k : Char) (v : JNum) : AdvMap :=
  if k ∈ keysOf m then m.map (fun kv => if kv.1 = k then (k, v) else kv)
  else m ++ [(k, v)]

/-- Python `m.update(other)`: set every key of `other` in `m`, in order. -/
def updateAdv (m other : AdvMap) : AdvMap :=
  other.foldl (fun acc kv => setKey acc kv.1 kv.2) m

/-- Python dict lookup `m[k]`, as an option. -/
def lookupAdv (m : AdvMap) (k : Char) : Option JNum :=
  (m.find? (fun kv => kv.1 == k)).map Prod.snd

/-- Fatal Python errors raised by the converter.  `fuelOut` is not a Python
error: it marks exhaustion of the step index that models the unguarded
recursion through reference providers. -/
inductive PyErr where
  | unknownProvider (ptype : String)
  | fontNotFound (fontId : String)
  | valueError
  | zeroDivision
  | fuelOut
deriving DecidableEq

/-- Body of a converted provider: `convert_provider` only ever produces
`reference` or `space` dictionaries. -/
inductive OutBody where
  | reference (id : String)
  | space (advances : AdvMap)
deriving DecidableEq

/-- Converted provider as written to the output: its body plus the optional
`filter` field copied verbatim from the source provider. -/
structure OutProvider where
  body : OutBody
  filter : Option String
deriving DecidableEq

/-- Advance-map part of `assure_integers`: every whole-valued advance is
re-stored as a Python `int` via `int(..)`. -/
def assureAdvances (m : AdvMap) : AdvMap :=
  m.map (fun kv => if kv.2.isInteger then (kv.1, JNum.jint (pyTrunc kv.2.val)) else kv)

/-- Embedding of `assure_integers`: a provider whose type is not `space` is
returned untouched. -/
def assure_integers : OutBody → OutBody
  | .space m => .space (assureAdvances m)
  | b => b

/-- Advance map in normalized representation: every mathematically whole
value is stored as a Python `int`. -/
def normalizedAdv (m : AdvMap) : Bool :=
  m.all (fun kv => kv.2.isIntRepr || !kv.2.isInteger)

/-- Step-indexed helper for `bitLength`: the fuel only has to dominate the
number of binary digits, so `n` itself is always enough. -/
def bitLengthAux : Nat → Nat → Nat
  | 0, _ => 0
  | fuel + 1, n => if n = 0 then 0 else bitLengthAux fuel (n / 2) + 1

/-- Python `n.bit_length()` for a natural number. -/
def bitLength (n : Nat) : Nat := bitLengthAux n n

/-- Step-indexed helper for `lowBitLength`. -/
def lowBitLengthAux : Nat → Nat → Nat
  | 0, _ => 0
  | fuel + 1, n =>
    if n = 0 then 0 else if n % 2 = 1 then 1 else lowBitLengthAux fuel (n / 2) + 1

/-- Python `(n & -n).bit_length()`: by the two's-complement identity
`n & -n = 2 ^ (trailing zeros of n)`, this is one plus the number of trailing
zero bits of a non-zero `n`, and `0` for `n = 0`. -/
def lowBitLength (n : Nat) : Nat := lowBitLengthAux n n

/-- Value of one hexadecimal digit: `0`-`9`, `a`-`f` or `A`-`F`, read off
the codepoint. -/
def hexDigitVal (c : Char) : Option Nat :=
  if 48 ≤ c.toNat ∧ c.toNat ≤ 57 then some (c.toNat - 48)
  else if 97 ≤ c.toNat ∧ c.toNat ≤ 102 then some (c.toNat - 97 + 10)
  else if 65 ≤ c.toNat ∧ c.toNat ≤ 70 then some (c.toNat - 65 + 10)
  else none

/-- Python `int(s, 16)` restricted to plain strings of hexadecimal digits
(the form appearing in `.hex` font files); the empty string or a non-digit
is a `ValueError`. -/
def hexParse (s : List Char) : Option Nat :=
  if s.isEmpty then none
  else s.foldlM (fun acc c => (hexDigitVal c).map (fun d => 16 * acc + d)) 0

/-- Except-valued form of `hexParse`: a failed parse is a fatal
`ValueError`. -/
def hexParseE (s : List Char) : Except PyErr Nat :=
  match hexParse s with
  | some v => .ok v
  | none => .error .valueError

/-- Embedding of `read_hex_bitmap`: drawn pixel width of a unihex character
from its hexadecimal bitmap, 16 rows of `row_len = len(img) // 16` hex digits
each; the result is `high - low + 1` over the accumulated extremes of the
non-zero rows, or `0` when every row is zero (`max_pixel` still `-1`). -/
def read_hex_bitmap (img : List Char) : Except PyErr ℤ := do
  let rowLen := img.length / 16
  let rows ← (List.range 16).mapM
    (fun i => hexParseE ((img.drop (i * rowLen)).take rowLen))
  let mm := rows.foldl
    (fun (mp : ℤ × ℤ) row =>
      if row = 0 then mp
      else (min (lowBitLength row : ℤ) mp.1, max (bitLength row : ℤ) mp.2))
    ((rowLen * 4 : ℤ), (-1 : ℤ))
  pure (if mm.2 = -1 then 0 else mm.2 - mm.1 + 1)

/-- Decoded RGBA raster image (produced by the external image library):
dimensions plus the alpha channel of the pixel at `(x, y)`. -/
structure Img where
  width : Nat
  height : Nat
  alpha : Nat → Nat → Nat

/-- Embedding of `scan_bitmap_col`: true iff some pixel of the vertical run
of `height` pixels starting at `(start_x, start_y)` has non-zero alpha. -/
def scan_bitmap_col (img : Img) (startX startY height : Nat) : Bool :=
  (List.range height).any (fun i => img.alpha startX (startY + i) != 0)

/-- Column loop `for i in range(char_width - 1, -1, -1)` of
`convert_bitmap_provider`: pixel width up to the rightmost ink column of the
cell, or `0` when no column of the cell contains ink. -/
def findInkWidth (img : Img) (cursorX cursorY charWidth charHeight : Nat) : Nat :=
  match (List.range charWidth).reverse.find?
      (fun i => scan_bitmap_col img (cursorX + i) cursorY charHeight) with
  | some i => i + 1
  | none => 0

/-- Advance emitted by `convert_bitmap_provider` for one glyph cell:
`(int(0.5 + width * height / char_height) + 1) * width_factor` with `width`
the rightmost-ink pixel width of the cell. -/
def bitmapCellAdvance (factor : ℚ) (img : Img)
    (cursorX cursorY charWidth charHeight : Nat) (height : ℤ) : ℚ :=
  ((pyTrunc (1/2 + (findInkWidth img cursorX cursorY charWidth charHeight : ℚ)
      * (height : ℚ) / (charHeight : ℚ)) : ℚ) + 1) * factor

/-- Body of the inner `for x, char in enumerate(line)` loop of
`convert_bitmap_provider`: skip NUL and space cells, otherwise register the
cell's advance (raising `ZeroDivisionError` when `char_height = 0`, from the
`width * height / char_height` rescale). -/
def bitmapCellStep (factor : ℚ) (img : Img) (charWidth charHeight : Nat)
    (height : ℤ) (y : Nat) (m : AdvMap) (xchar : Nat × Char) : Except PyErr AdvMap :=
  if xchar.2 = Char.ofNat 0 ∨ xchar.2 = ' ' then pure m
  else if charHeight = 0 then throw PyErr.zeroDivision
  else
    pure (setKey m xchar.2 (JNum.jfloat (bitmapCellAdvance factor img
      (xchar.1 * charWidth) (y * charHeight) charWidth charHeight height)))

/-- Body of the outer `for y, line in enumerate(chars)` loop of
`convert_bitmap_provider`: cell sizes come from the image dimensions divided
by the grid dimensions; an empty row is a `ZeroDivisionError`
(`img.width // 0`). -/
def bitmapRowStep (factor : ℚ) (chars : List (List Char)) (height : ℤ)
    (img : Img) (m0 : AdvMap) (yline : Nat × List Char) : Except PyErr AdvMap :=
  if yline.2.length = 0 then throw PyErr.zeroDivision
  else yline.2.enum.foldlM
    (bitmapCellStep factor img (img.width / yline.2.length)
      (img.height / chars.length) height yline.1) m0

/-- Embedding of `convert_bitmap_provider`: scan each glyph cell of the grid
in row-major order, skipping NUL and space cells. -/
def convert_bitmap_provider (factor : ℚ) (chars : List (List Char))
    (height : ℤ) (img : Img) : Except PyErr OutBody := do
  let advances ← chars.enum.foldlM (bitmapRowStep factor chars height img) []
  pure (.space advances)

/-- Contribution of one glyph cell (grid position `(x, y)`, character `c`)
to the bitmap provider's advance map: nothing for NUL and space cells. -/
def bitmapCellContrib (factor : ℚ) (img : Img) (charWidth charHeight : Nat)
    (height : ℤ) (y x : Nat) (c : Char) : Option (Char × JNum) :=
  if c = Char.ofNat 0 ∨ c = ' ' then Option.none
  else some (c, JNum.jfloat (bitmapCellAdvance factor img
    (x * charWidth) (y * charHeight) charWidth charHeight height))

/-- Cell contributions of a bitmap provider in row-major visiting order. -/
def bitmapContribs (factor : ℚ) (chars : List (List Char)) (height : ℤ)
    (img : Img) : List (Char × JNum) :=
  chars.enum.flatMap (fun yline =>
    yline.2.enum.filterMap (fun xchar =>
      bitmapCellContrib factor img (img.width / yline.2.length)
        (img.height / chars.length) height yline.1 xchar.1 xchar.2))

/-- Unihex inclusion mode (CLI option `-u`). -/
inductive UnihexMode where
  | none
  | ascii
  | allNamed
  | all
deriving DecidableEq

/-- Size-override rule of a unihex provider: an inclusive character range
with explicit left/right pixel columns. -/
structure SizeOverride where
  fromChar : Char
  toChar : Char
  left : ℤ
  right : ℤ
deriving DecidableEq

/-- Override-list preprocessing of `convert_unihex_provider`:
`(min_code, max_code, width)` triples with `width = right - left + 1`, or `0`
when the from-char and to-char are both codepoint 0. -/
def overrideTriples (l : List SizeOverride) : List (Nat × Nat × ℤ) :=
  l.map (fun o =>
    (o.fromChar.toNat, o.toChar.toNat,
      if o.fromChar.toNat = 0 ∧ o.toChar.toNat = 0 then 0 else o.right - o.left + 1))

/-- Per-line filtering and width computation of `convert_unihex_provider`:
`ok none` means the line is skipped by the mode filter; otherwise the width
comes from the first matching size override, else from the hex bitmap. -/
def unihexEntryWidth (mode : UnihexMode) (triples : List (Nat × Nat × ℤ))
    (code : Nat) (img : List Char) : Except PyErr (Option ℤ) :=
  if mode = .ascii ∧ 256 < code then pure Option.none
  else
    match triples.find? (fun t => t.1 ≤ code && code ≤ t.2.1) with
    | some t => pure (some t.2.2)
    | Option.none =>
      if mode = .allNamed ∧ 256 < code then pure Option.none
      else do
        let w ← read_hex_bitmap img
        pure (some w)

/-- Contribution of one decoded `.hex` line `code:img` to the advance map:
the parsed codepoint's character mapped to `(int(0.5 * width) + 1) * factor`,
or nothing when the mode filter skips the line. -/
def unihexEntryContrib (mode : UnihexMode) (factor : ℚ)
    (triples : List (Nat × Nat × ℤ)) (e : List Char × List Char) :
    Except PyErr (Option (Char × JNum)) := do
  let code ← hexParseE e.1
  let w? ← unihexEntryWidth mode triples code e.2
  match w? with
  | Option.none => pure Option.none
  | some w =>
    pure (some (Char.ofNat code,
      JNum.jfloat (((pyTrunc ((1/2 : ℚ) * (w : ℚ)) : ℚ) + 1) * factor)))

/-- One iteration of the line loop of `convert_unihex_provider`: fold the
line's contribution (if any) into the advance map. -/
def unihexStep (mode : UnihexMode) (factor : ℚ) (triples : List (Nat × Nat × ℤ))
    (m : AdvMap) (e : List Char × List Char) : Except PyErr AdvMap := do
  match ← unihexEntryContrib mode factor triples e with
  | Option.none => pure m
  | some kv => pure (setKey m kv.1 kv.2)

/-- Advance-map accumulation loop of `convert_unihex_provider`. -/
def unihexAdvances (mode : UnihexMode) (factor : ℚ)
    (triples : List (Nat × Nat × ℤ)) (entries : List (List Char × List Char)) :
    Except PyErr AdvMap :=
  entries.foldlM (unihexStep mode factor triples) []

/-- Embedding of `convert_unihex_provider`.  The `.hex` archive entry is
modelled by its decoded lines, each already split at the `:` into codepoint
text and bitmap text (archive access is an external collaborator); mode
`none` returns null immediately, and an empty resulting advance map also
returns null, dropping the provider. -/
def convert_unihex_provider (mode : UnihexMode) (factor : ℚ)
    (entries : List (List Char × List Char)) (sizeOverrides : List SizeOverride) :
    Except PyErr (Option OutBody) :=
  if mode = .none then pure Option.none
  else do
    let advances ← unihexAdvances mode factor (overrideTriples sizeOverrides) entries
    if advances.isEmpty then pure Option.none
    else pure (some (.space advances))

/-- Embedding of `convert_space_provider`: every advance multiplied by the
width factor (a Python float, so every product is stored as a float). -/
def convert_space_provider (factor : ℚ) (advances : AdvMap) : OutBody :=
  .space (advances.map (fun kv => (kv.1, JNum.jfloat (kv.2.val * factor))))

/-- Embedding of `convert_ttf_provider`.  The freetype face is an external
collaborator, modelled by the `(codepoint, advance)` pairs it enumerates, the
advance already divided by 64 and by the oversample; characters of the skip
set are omitted. -/
def convert_ttf_provider (factor : ℚ) (faceChars : List (Nat × ℚ))
    (skip : List Char) : OutBody :=
  .space (faceChars.foldl
    (fun m p =>
      if Char.ofNat p.1 ∈ skip then m
      else setKey m (Char.ofNat p.1) (JNum.jfloat (p.2 * factor)))
    [])

/-- Body of a source provider, by its `type` tag.  File-backed resources are
modelled by their decoded content (resource-path resolution, image decoding,
archive and vector-font reading are external collaborators); `unknown`
stands for any other `type` string. -/
inductive SrcBody where
  | reference (id : String)
  | space (advances : AdvMap)
  | ttf (faceChars : List (Nat × ℚ)) (skip : List Char)
  | bitmap (chars : List (List Char)) (height : ℤ) (img : Img)
  | unihex (entries : List (List Char × List Char)) (sizeOverrides : List SizeOverride)
  | unknown (ptype : String)

/-- Source provider: body plus the optional opaque `filter` field. -/
structure SrcProvider where
  body : SrcBody
  filter : Option String

/-- Per-run conversion configuration; the pack folders and the verbosity flag
only affect path resolution and logging, which are external. -/
structure Ctx where
  suffix : String
  widthFactor : ℚ
  unihexMode : UnihexMode

/-- Ordered log of font definitions written to storage, as pairs of the new
font id and the emitted provider list. -/
abbrev WriteLog := List (String × List OutProvider)

/-- Loaded font definitions, by font id. -/
abbrev FontEnv := String → Option (List SrcProvider)

/-- Embedding of `convert_provider`, parametrised by the recursive font
conversion used for reference providers; returns the converted body (`none`
for a dropped provider) together with the font files written by recursive
conversions, in order. -/
def convert_provider (ctx : Ctx)
    (recF : String → Except PyErr (String × WriteLog)) :
    SrcBody → Except PyErr (Option OutBody × WriteLog)
  | .reference fontId => do
    let r ← recF fontId
    pure (some (.reference r.1), r.2)
  | .space advances => pure (some (convert_space_provider ctx.widthFactor advances), [])
  | .ttf faceChars skip => pure (some (convert_ttf_provider ctx.widthFactor faceChars skip), [])
  | .bitmap chars height img => do
    let b ← convert_bitmap_provider ctx.widthFactor chars height img
    pure (some b, [])
  | .unihex entries ovs => do
    let r ← convert_unihex_provider ctx.unihexMode ctx.widthFactor entries ovs
    pure (r, [])
  | .unknown ptype => throw (PyErr.unknownProvider ptype)

/-- Provider loop of `convert_font`: convert each provider, drop null
results, normalize integers, attach filters, and sort into the "other" and
"space" buckets, accumulating recursive font writes in order. -/
def bucketProviders (ctx : Ctx)
    (recF : String → Except PyErr (String × WriteLog)) :
    List SrcProvider → List OutProvider → List AdvMap → WriteLog →
    Except PyErr (List OutProvider × List AdvMap × WriteLog)
  | [], others, spaces, writes => pure (others, spaces, writes)
  | p :: rest, others, spaces, writes => do
    let r ← convert_provider ctx recF p.body
    match r.1 with
    | Option.none => bucketProviders ctx recF rest others spaces (writes ++ r.2)
    | some b0 =>
      let b := assure_integers b0
      match p.filter with
      | some f => bucketProviders ctx recF rest (others ++ [⟨b, some f⟩]) spaces (writes ++ r.2)
      | Option.none =>
        match b with
        | .space m => bucketProviders ctx recF rest others (spaces ++ [m]) (writes ++ r.2)
        | b => bucketProviders ctx recF rest (others ++ [⟨b, Option.none⟩]) spaces (writes ++ r.2)

/-- Body of one iteration of the merge loop: pop the last space provider and
fold its advance map into the new last one (`dict.update`, later entries
overwriting earlier ones at matching characters). -/
def popMergeStep (l : List AdvMap) : List AdvMap :=
  match l.reverse with
  | toMerge :: lastM :: rest => (updateAdv lastM toMerge :: rest).reverse
  | _ => l

/-- Merge loop `while len(space_providers) > 1` of `convert_font`, fuelled by
the list length, which bounds the number of iterations since each iteration
shortens the list by one. -/
def mergeWhileAux : Nat → List AdvMap → List AdvMap
  | 0, l => l
  | fuel + 1, l => if 1 < l.length then mergeWhileAux fuel (popMergeStep l) else l

/-- Merge of the space bucket into at most one advance map. -/
def mergeWhile (l : List AdvMap) : List AdvMap := mergeWhileAux l.length l

/-- Body of `convert_font` for one font, parametrised by the recursive
conversion: load the definition, bucket the converted providers, merge the
space bucket, and write `other_providers ++ space_providers` under the new
id, returning the new id and the ordered write log. -/
def convert_font_step (ctx : Ctx) (env : FontEnv)
    (recF : String → Except PyErr (String × WriteLog)) (fontId : String) :
    Except PyErr (String × WriteLog) := do
  let newFontId := fontId ++ ctx.suffix
  match env fontId with
  | Option.none => throw (PyErr.fontNotFound fontId)
  | some oldProviders => do
    let bs ← bucketProviders ctx recF oldProviders [] [] []
    let spaces := mergeWhile bs.2.1
    let outProviders := bs.1 ++ spaces.map (fun m => OutProvider.mk (.space m) Option.none)
    pure (newFontId, bs.2.2 ++ [(newFontId, outProviders)])

/-- Embedding of `convert_font`, step-indexed to model the unguarded
recursion through reference providers: `fuel` bounds the reference nesting
depth, and a conversion that would recurse deeper fails with `fuelOut`
(Python recurses without bound on such cyclic data). -/
def convert_font (ctx : Ctx) (env : FontEnv) : Nat → String → Except PyErr (String × WriteLog)
  | 0, _ => throw PyErr.fuelOut
  | fuel + 1, fontId => convert_font_step ctx env (convert_font ctx env fuel) fontId

/-- Right-nested description of the merge loop: popping from the end makes
`mergeWhile [m₀, …, mₙ]` compute `m₀ ⊕ (m₁ ⊕ (… ⊕ mₙ))` with
`⊕ = updateAdv`. -/
def mergeAllR : AdvMap → List AdvMap → AdvMap
  | m, [] => m
  | m, m2 :: rest => updateAdv m (mergeAllR m2 rest)

/-- Whether a source provider body's literal advance map (if any) has unique
keys; this holds for every provider decoded from a JSON object, whose keys
are unique by construction. -/
def srcSpaceNodup (b : SrcBody) : Bool :=
  match b with
  | .space advances => decide (keysOf advances).Nodup
  | _ => true

/-- Whether a hex entry resolves to a defined (decodable, non-empty) glyph
bitmap. -/
def hexGlyphDefined (img : List Char) : Bool :=
  match read_hex_bitmap img with
  | .ok w => decide (w ≠ 0)
  | .error _ => false

/-- Keep-predicate of mode `all_named` as the specification words it: the
codepoint is at most 256, or falls inside a size-override range, or its hex
entry resolves to a defined glyph. -/
def allNamedClaimKeeps (triples : List (Nat × Nat × ℤ)) (code : Nat)
    (img : List Char) : Bool :=
  decide (code ≤ 256) || (triples.find? (fun t => t.1 ≤ code && code ≤ t.2.1)).isSome
    || hexGlyphDefined img

/-- Example font of the merge-order property: three filter-less space
providers `A = {a: 1}`, `B = {a: 2, b: 3}`, `C = {c: 4}`. -/
def c1Provs : List SrcProvider :=
  [⟨SrcBody.space [('a', JNum.jint 1)], Option.none⟩,
   ⟨SrcBody.space [('a', JNum.jint 2), ('b', JNum.jint 3)], Option.none⟩,
   ⟨SrcBody.space [('c', JNum.jint 4)], Option.none⟩]

/-- Environment holding the merge-order example font. -/
def c1Env : FontEnv := fun _ => some c1Provs

/-- Context of the merge-order example: suffix `_s`, width factor 1. -/
def c1Ctx : Ctx := ⟨"_s", 1, UnihexMode.ascii⟩

/-- Environment of the reference-conversion example: font `base` references
font `other`, which is a plain space provider. -/
def c8Env : FontEnv := fun fontId =>
  if fontId = "other" then some [⟨SrcBody.space [('a', JNum.jint 1)], Option.none⟩]
  else some [⟨SrcBody.reference "other", Option.none⟩]

/-- Context of the reference-conversion example: suffix `_sp`. -/
def c8Ctx : Ctx := ⟨"_sp", 1, UnihexMode.ascii⟩

/-- Environment of the normalization example: a filtered space provider with
fractional advances and a filter-less integral one, width factor 2. -/
def c5Env : FontEnv := fun _ => some
  [⟨SrcBody.space [('a', JNum.jfloat (3/2)), ('b', JNum.jfloat (5/4))], some "flt"⟩,
   ⟨SrcBody.space [('c', JNum.jint 3)], Option.none⟩]

/-- Context of the normalization example. -/
def c5Ctx : Ctx := ⟨"_s", 2, UnihexMode.ascii⟩

/-- Example font of the filtered-provider property: a filtered space
provider followed by two filter-less space providers. -/
def c6Provs : List SrcProvider :=
  [⟨SrcBody.space [('a', JNum.jint 1)], some "keep"⟩,
   ⟨SrcBody.space [('b', JNum.jint 2)], Option.none⟩,
   ⟨SrcBody.space [('c', JNum.jint 3)], Option.none⟩]

/-- Environment holding the filtered-provider example font. -/
def c6Env : FontEnv := fun _ => some c6Provs

/-- Context of the filtered-provider example. -/
def c6Ctx : Ctx := ⟨"_s", 1, UnihexMode.ascii⟩

theorem keysOf_nil : keysOf [] = [] := rfl

theorem keysOf_append (a b : AdvMap) : keysOf (a ++ b) = keysOf a ++ keysOf b := by
  simp [keysOf]

theorem keysOf_cons (kv : Char × JNum) (m : AdvMap) :
    keysOf (kv :: m) = kv.1 :: keysOf m := rfl

theorem replaceMap_of_not_mem {m : AdvMap} {k : Char} (v : JNum) (h : k ∉ keysOf m) :
    m.map (fun kv => if kv.1 = k then (k, v) else kv) = m := by
  induction m with
  | nil => rfl
  | cons kv m ih =>
    rw [keysOf_cons, List.mem_cons] at h
    push_neg at h
    rw [List.map_cons, if_neg (fun e => h.1 (by rw [e])), ih h.2]

theorem setKey_of_not_mem {m : AdvMap} {k : Char} (v : JNum) (h : k ∉ keysOf m) :
    setKey m k v = m ++ [(k, v)] := by
  simp [setKey, h]

theorem setKey_of_mem {m : AdvMap} {k : Char} (v : JNum) (h : k ∈ keysOf m) :
    setKey m k v = m.map (fun kv => if kv.1 = k then (k, v) else kv) := by
  simp [setKey, h]

theorem keysOf_map_replace (m : AdvMap) (k : Char) (v : JNum) :
    keysOf (m.map (fun kv => if kv.1 = k then (k, v) else kv)) = keysOf m := by
  induction m with
  | nil => rfl
  | cons kv m ih =>
    rw [List.map_cons, keysOf_cons, keysOf_cons, ih]
    by_cases h : kv.1 = k
    · simp [h]
    · simp [h]

theorem keysOf_setKey_of_mem {m : AdvMap} {k : Char} (v : JNum) (h : k ∈ keysOf m) :
    keysOf (setKey m k v) = keysOf m := by
  rw [setKey_of_mem v h, keysOf_map_replace]

theorem keysOf_setKey_of_not_mem {m : AdvMap} {k : Char} (v : JNum) (h : k ∉ keysOf m) :
    keysOf (setKey m k v) = keysOf m ++ [k] := by
  rw [setKey_of_not_mem v h, keysOf_append]
  rfl

theorem mem_keysOf_setKey_self (m : AdvMap) (k : Char) (v : JNum) :
    k ∈ keysOf (setKey m k v) := by
  by_cases h : k ∈ keysOf m
  · rw [keysOf_setKey_of_mem v h]; exact h
  · rw [keysOf_setKey_of_not_mem v h]; simp

theorem mem_keysOf_setKey_of_mem {m : AdvMap} {k : Char} (j : Char) (w : JNum)
    (h : k ∈ keysOf m) : k ∈ keysOf (setKey m j w) := by
  by_cases hj : j ∈ keysOf m
  · rw [keysOf_setKey_of_mem w hj]; exact h
  · rw [keysOf_setKey_of_not_mem w hj]; exact List.mem_append_left _ h

theorem nodup_keysOf_setKey {m : AdvMap} (k : Char) (v : JNum)
    (h : (keysOf m).Nodup) : (keysOf (setKey m k v)).Nodup := by
  by_cases hm : k ∈ keysOf m
  · rw [keysOf_setKey_of_mem v hm]; exact h
  · rw [keysOf_setKey_of_not_mem v hm]
    simpa [List.nodup_append] using ⟨h, hm⟩

theorem setKey_setKey_same (m : AdvMap) (k : Char) (w v : JNum) :
    setKey (setKey m k w) k v = setKey m k v := by
  by_cases h : k ∈ keysOf m
  · rw [setKey_of_mem w h, setKey_of_mem v (by rw [keysOf_map_replace]; exact h),
      setKey_of_mem v h, List.map_map]
    apply List.map_congr_left
    intro kv _
    by_cases hk : kv.1 = k <;> simp [Function.comp, hk]
  · rw [setKey_of_not_mem w h,
      setKey_of_mem v (by rw [keysOf_append]; simp [keysOf]),
      setKey_of_not_mem v h, List.map_append, replaceMap_of_not_mem v h]
    simp

theorem setKey_setKey_comm {m : AdvMap} {j k : Char} (w v : JNum)
    (hjk : j ≠ k) (hk : k ∈ keysOf m) :
    setKey (setKey m j w) k v = setKey (setKey m k v) j w := by
  by_cases hj : j ∈ keysOf m
  · rw [setKey_of_mem w hj, setKey_of_mem v (by rw [keysOf_map_replace]; exact hk),
      setKey_of_mem v hk, setKey_of_mem w (by rw [keysOf_map_replace]; exact hj),
      List.map_map, List.map_map]
    apply List.map_congr_left
    intro kv _
    by_cases h1 : kv.1 = j
    · simp [Function.comp, h1, hjk, Ne.symm hjk]
    · have hkj : ¬(k = j) := fun e => hjk e.symm
      by_cases h2 : kv.1 = k <;> simp [Function.comp, h1, h2, hjk, hkj]
  · rw [setKey_of_not_mem w hj, setKey_of_mem v hk,
      setKey_of_mem v (by rw [keysOf_append]; exact List.mem_append_left _ hk),
      setKey_of_not_mem w (by rw [keysOf_map_replace]; exact hj),
      List.map_append]
    congr 1
    simp [hjk]

theorem updateAdv_nil (m : AdvMap) : updateAdv m [] = m := rfl

theorem updateAdv_cons (m : AdvMap) (kv : Char × JNum) (c : AdvMap) :
    updateAdv m (kv :: c) = updateAdv (setKey m kv.1 kv.2) c := rfl

theorem updateAdv_append (m b c : AdvMap) :
    updateAdv m (b ++ c) = updateAdv (updateAdv m b) c := by
  simp [updateAdv, List.foldl_append]

theorem mem_keysOf_updateAdv_of_mem {m : AdvMap} {k : Char} (c : AdvMap)
    (h : k ∈ keysOf m) : k ∈ keysOf (updateAdv m c) := by
  induction c generalizing m with
  | nil => exact h
  | cons kv c ih => exact ih (mem_keysOf_setKey_of_mem kv.1 kv.2 h)

theorem nodup_keysOf_updateAdv {m : AdvMap} (c : AdvMap)
    (h : (keysOf m).Nodup) : (keysOf (updateAdv m c)).Nodup := by
  induction c generalizing m with
  | nil => exact h
  | cons kv c ih => exact ih (nodup_keysOf_setKey kv.1 kv.2 h)

theorem setKey_updateAdv {m : AdvMap} {k : Char} (v : JNum) (c : AdvMap)
    (hm : k ∈ keysOf m) (hc : k ∉ keysOf c) :
    setKey (updateAdv m c) k v = updateAdv (setKey m k v) c := by
  induction c generalizing m with
  | nil => rfl
  | cons kv c ih =>
    rw [keysOf_cons, List.mem_cons] at hc
    push_neg at hc
    rw [updateAdv_cons, updateAdv_cons,
      ih (mem_keysOf_setKey_of_mem kv.1 kv.2 hm) hc.2,
      setKey_setKey_comm kv.2 v (fun e => hc.1 e.symm) hm]

theorem setKey_cons_of_mem {b : AdvMap} {k k1 : Char} (w1 : JNum) (v : JNum)
    (hne : k ≠ k1) (hmem : k ∈ keysOf b) :
    setKey ((k1, w1) :: b) k v = (k1, w1) :: setKey b k v := by
  rw [setKey_of_mem v (by rw [keysOf_cons]; exact List.mem_cons_of_mem _ hmem),
    setKey_of_mem v hmem, List.map_cons, if_neg (fun e => hne e.symm)]

theorem updateAdv_setKey_mem : ∀ (b a : AdvMap) (k : Char) (v : JNum),
    (keysOf b).Nodup → k ∈ keysOf b →
    updateAdv a (setKey b k v) = setKey (updateAdv a b) k v := by
  intro b
  induction b with
  | nil => intro a k v _ hm; cases hm
  | cons kv b ih =>
    intro a k v hb hm
    rw [keysOf_cons] at hb hm
    by_cases hk : k = kv.1
    · have hnb : k ∉ keysOf b := by
        rw [hk]
        exact (List.nodup_cons.mp hb).1
      have hset : setKey (kv :: b) k v = (k, v) :: b := by
        rw [setKey_of_mem v (by rw [keysOf_cons, hk]; exact List.mem_cons_self _ _),
          List.map_cons, if_pos hk.symm, replaceMap_of_not_mem v hnb]
      rw [hset]
      show updateAdv (setKey a k v) b = setKey (updateAdv (setKey a kv.1 kv.2) b) k v
      rw [setKey_updateAdv v b (by rw [hk]; exact mem_keysOf_setKey_self a kv.1 kv.2) hnb]
      rw [← hk, setKey_setKey_same]
    · have hmem : k ∈ keysOf b := by
        rcases List.mem_cons.mp hm with h | h
        · exact absurd h hk
        · exact h
      have hkv : kv = (kv.1, kv.2) := rfl
      rw [hkv, setKey_cons_of_mem kv.2 v hk hmem, updateAdv_cons, updateAdv_cons]
      exact ih (setKey a kv.1 kv.2) k v (List.nodup_cons.mp hb).2 hmem

theorem updateAdv_setKey {b : AdvMap} (a : AdvMap) (k : Char) (v : JNum)
    (hb : (keysOf b).Nodup) :
    updateAdv a (setKey b k v) = setKey (updateAdv a b) k v := by
  by_cases hm : k ∈ keysOf b
  · exact updateAdv_setKey_mem b a k v hb hm
  · rw [setKey_of_not_mem v hm, updateAdv_append]
    rfl

theorem updateAdv_assoc {b : AdvMap} (a c : AdvMap) (hb : (keysOf b).Nodup) :
    updateAdv (updateAdv a b) c = updateAdv a (updateAdv b c) := by
  induction c generalizing b with
  | nil => rfl
  | cons kv c ih =>
    rw [updateAdv_cons, updateAdv_cons, ← updateAdv_setKey a kv.1 kv.2 hb,
      ih (nodup_keysOf_setKey kv.1 kv.2 hb)]

theorem updateAdv_foldl_swap {b : AdvMap} (cs : List AdvMap) (a : AdvMap)
    (hb : (keysOf b).Nodup) :
    updateAdv a (cs.foldl updateAdv b) = cs.foldl updateAdv (updateAdv a b) := by
  induction cs generalizing b with
  | nil => rfl
  | cons c cs ih =>
    rw [List.foldl_cons, List.foldl_cons, ih (nodup_keysOf_updateAdv c hb),
      updateAdv_assoc a c hb]

theorem mergeAllR_foldl {rest : List AdvMap} (m : AdvMap)
    (h : ∀ x ∈ rest, (keysOf x).Nodup) :
    mergeAllR m rest = rest.foldl updateAdv m := by
  induction rest generalizing m with
  | nil => rfl
  | cons r rs ih =>
    rw [mergeAllR, List.foldl_cons,
      ih r (fun x hx => h x (List.mem_cons_of_mem _ hx)),
      updateAdv_foldl_swap rs m (h r (List.mem_cons_self _ _))]

theorem popMergeStep_concat2 (l : List AdvMap) (b a : AdvMap) :
    popMergeStep (l ++ [b, a]) = l ++ [updateAdv b a] := by
  have h : (l ++ [b, a]).reverse = a :: b :: l.reverse := by simp
  unfold popMergeStep
  rw [h]
  simp

theorem mergeAllR_concat2 : ∀ (rs : List AdvMap) (m b a : AdvMap),
    mergeAllR m (rs ++ [b, a]) = mergeAllR m (rs ++ [updateAdv b a]) := by
  intro rs
  induction rs with
  | nil => intro m b a; rfl
  | cons r rs ih =>
    intro m b a
    show updateAdv m (mergeAllR r (rs ++ [b, a])) =
      updateAdv m (mergeAllR r (rs ++ [updateAdv b a]))
    rw [ih r b a]

theorem mergeWhileAux_singleton : ∀ (n : Nat) (m : AdvMap),
    mergeWhileAux n [m] = [m] := by
  intro n m
  cases n with
  | zero => rfl
  | succ n => simp [mergeWhileAux]

theorem mergeWhileAux_cons : ∀ (n : Nat) (m : AdvMap) (rest : List AdvMap),
    rest.length ≤ n → mergeWhileAux n (m :: rest) = [mergeAllR m rest] := by
  intro n
  induction n with
  | zero =>
    intro m rest h
    rw [List.length_eq_zero.mp (Nat.le_zero.mp h)]
    rfl
  | succ n ih =>
    intro m rest h
    rcases List.eq_nil_or_concat rest with hr | ⟨rs, a, hr⟩
    · rw [hr]; exact mergeWhileAux_singleton (n + 1) m
    · subst hr
      rw [List.concat_eq_append]
      have hlen : 1 < (m :: (rs ++ [a])).length := by simp
      rw [show mergeWhileAux (n + 1) (m :: (rs ++ [a])) =
          mergeWhileAux n (popMergeStep (m :: (rs ++ [a]))) by
        simp [mergeWhileAux, hlen]]
      rcases List.eq_nil_or_concat rs with hs | ⟨rs2, b, hs⟩
      · subst hs
        rw [show (m :: ([] ++ [a]) : List AdvMap) = [] ++ [m, a] by simp,
          popMergeStep_concat2]
        simp only [List.nil_append]
        rw [mergeWhileAux_singleton]
        rfl
      · subst hs
        rw [List.concat_eq_append,
          show (m :: (rs2 ++ [b] ++ [a]) : List AdvMap) = (m :: rs2) ++ [b, a] by simp,
          popMergeStep_concat2,
          show ((m :: rs2) ++ [updateAdv b a] : List AdvMap) = m :: (rs2 ++ [updateAdv b a]) by simp]
        rw [ih m (rs2 ++ [updateAdv b a]) (by
          have := h
          simp at this ⊢
          omega)]
        rw [show (rs2 ++ [b] ++ [a] : List AdvMap) = rs2 ++ [b, a] by simp,
          mergeAllR_concat2]

theorem mergeWhile_nil : mergeWhile [] = [] := rfl

theorem mergeWhile_cons (m : AdvMap) (rest : List AdvMap) :
    mergeWhile (m :: rest) = [mergeAllR m rest] := by
  unfold mergeWhile
  exact mergeWhileAux_cons (m :: rest).length m rest (by simp)

theorem foldlInv {α β : Type _} (f : β → α → β) (Inv : β → Prop)
    (hf : ∀ m x, Inv m → Inv (f m x)) :
    ∀ (l : List α) (m : β), Inv m → Inv (l.foldl f m) := by
  intro l
  induction l with
  | nil => intro m h; exact h
  | cons x xs ih => intro m h; exact ih (f m x) (hf m x h)

theorem exceptFoldlMInv {α β : Type _} (step : β → α → Except PyErr β) (Inv : β → Prop)
    (hstep : ∀ m x m2, Inv m → step m x = .ok m2 → Inv m2) :
    ∀ (l : List α) (m m2 : β), Inv m → l.foldlM step m = .ok m2 → Inv m2 := by
  intro l
  induction l with
  | nil =>
    intro m m2 h e
    rw [List.foldlM_nil] at e
    exact (Except.ok.inj e) ▸ h
  | cons x xs ih =>
    intro m m2 h e
    rw [List.foldlM_cons] at e
    cases hs : step m x with
    | error err => rw [hs] at e; exact Except.noConfusion e
    | ok m1 => rw [hs] at e; exact ih m1 m2 (hstep m x m1 h hs) e

theorem lookupAdv_append_not_mem {m : AdvMap} {k : Char} (t : AdvMap)
    (h : k ∉ keysOf m) : lookupAdv (m ++ t) k = lookupAdv t k := by
  induction m with
  | nil => rfl
  | cons kv m ih =>
    rw [keysOf_cons, List.mem_cons] at h
    push_neg at h
    rw [List.cons_append]
    show lookupAdv (kv :: (m ++ t)) k = lookupAdv t k
    rw [lookupAdv, List.find?_cons_of_neg _ (by simp; exact fun e => h.1 e.symm)]
    exact ih h.2

theorem lookupAdv_setKey_self (m : AdvMap) (k : Char) (v : JNum) :
    lookupAdv (setKey m k v) k = some v := by
  by_cases h : k ∈ keysOf m
  · rw [setKey_of_mem v h]
    induction m with
    | nil => cases h
    | cons kv m ih =>
      rw [keysOf_cons] at h
      by_cases hk : kv.1 = k
      · rw [List.map_cons, if_pos hk, lookupAdv, List.find?_cons_of_pos _ (by simp)]
        rfl
      · rw [List.map_cons, if_neg hk, lookupAdv,
          List.find?_cons_of_neg _ (by simp [hk])]
        have hm : k ∈ keysOf m := by
          rcases List.mem_cons.mp h with h1 | h1
          · exact absurd h1.symm hk
          · exact h1
        exact ih hm
  · rw [setKey_of_not_mem v h, lookupAdv_append_not_mem _ h, lookupAdv,
      List.find?_cons_of_pos _ (by simp)]
    rfl

theorem lookupAdv_replaceMap_ne (m : AdvMap) {k j : Char} (v : JNum) (h : j ≠ k) :
    lookupAdv (m.map (fun kv => if kv.1 = k then (k, v) else kv)) j = lookupAdv m j := by
  induction m with
  | nil => rfl
  | cons kv m ih =>
    rw [List.map_cons]
    by_cases hk : kv.1 = k
    · rw [if_pos hk, lookupAdv, lookupAdv,
        List.find?_cons_of_neg _ (by simp; exact fun e => h e.symm),
        List.find?_cons_of_neg _ (by simp [hk]; exact fun e => h e.symm)]
      exact ih
    · rw [if_neg hk, lookupAdv, lookupAdv]
      cases hjk : (kv.1 == j) with
      | true =>
        rw [List.find?_cons_of_pos _ (by simp [hjk]),
          List.find?_cons_of_pos _ (by simp [hjk])]
      | false =>
        rw [List.find?_cons_of_neg _ (by simp [hjk]),
          List.find?_cons_of_neg _ (by simp [hjk])]
        exact ih

theorem lookupAdv_append_single_ne (m : AdvMap) {k j : Char} (v : JNum) (h : j ≠ k) :
    lookupAdv (m ++ [(k, v)]) j = lookupAdv m j := by
  induction m with
  | nil =>
    rw [List.nil_append, lookupAdv,
      List.find?_cons_of_neg _ (by simp; exact fun e => h e.symm)]
    rfl
  | cons kv m ih =>
    rw [List.cons_append, lookupAdv, lookupAdv]
    cases hjk : (kv.1 == j) with
    | true =>
      rw [List.find?_cons_of_pos _ (by simp [hjk]),
        List.find?_cons_of_pos _ (by simp [hjk])]
    | false =>
      rw [List.find?_cons_of_neg _ (by simp [hjk]),
        List.find?_cons_of_neg _ (by simp [hjk])]
      exact ih

theorem lookupAdv_setKey_ne (m : AdvMap) {k j : Char} (v : JNum) (h : j ≠ k) :
    lookupAdv (setKey m k v) j = lookupAdv m j := by
  by_cases hm : k ∈ keysOf m
  · rw [setKey_of_mem v hm, lookupAdv_replaceMap_ne m v h]
  · rw [setKey_of_not_mem v hm, lookupAdv_append_single_ne m v h]

theorem lookupAdv_foldl_setKey : ∀ (l : List (Char × JNum)) (m0 : AdvMap) (k : Char),
    lookupAdv (l.foldl (fun m kv => setKey m kv.1 kv.2) m0) k =
      (match (l.filter (fun kv => kv.1 == k)).getLast? with
       | some kv => some kv.2
       | Option.none => lookupAdv m0 k) := by
  intro l
  induction l with
  | nil => intro m0 k; rfl
  | cons kv l ih =>
    intro m0 k
    rw [List.foldl_cons, ih (setKey m0 kv.1 kv.2) k]
    cases hk : (kv.1 == k) with
    | true =>
      rw [List.filter_cons, if_pos hk]
      cases hf : (l.filter (fun kv => kv.1 == k)).getLast? with
      | some kv2 =>
        cases he : l.filter (fun kv => kv.1 == k) with
        | nil => rw [he] at hf; cases hf
        | cons a t =>
          rw [he] at hf
          rw [List.getLast?_cons_cons, hf]
      | none =>
        rw [List.getLast?_eq_none_iff.mp hf]
        rw [show ([kv] : List (Char × JNum)).getLast? = some kv from rfl]
        show lookupAdv (setKey m0 kv.1 kv.2) k = some kv.2
        rw [beq_iff_eq.mp hk, lookupAdv_setKey_self]
    | false =>
      rw [List.filter_cons, if_neg (by simp [hk])]
      cases hf : (l.filter (fun kv => kv.1 == k)).getLast? with
      | some kv2 => rfl
      | none =>
        show lookupAdv (setKey m0 kv.1 kv.2) k = lookupAdv m0 k
        exact lookupAdv_setKey_ne m0 kv.2 (fun e => by rw [e] at hk; simp at hk)

theorem nodup_keysOf_foldl_setKey (l : List (Char × JNum)) :
    (keysOf (l.foldl (fun m kv => setKey m kv.1 kv.2) [])).Nodup := by
  exact foldlInv _ (fun m => (keysOf m).Nodup)
    (fun m kv h => nodup_keysOf_setKey kv.1 kv.2 h) l [] List.nodup_nil

theorem keysOf_assureAdvances (m : AdvMap) : keysOf (assureAdvances m) = keysOf m := by
  induction m with
  | nil => rfl
  | cons kv m ih =>
    rw [assureAdvances, List.map_cons, keysOf_cons]
    by_cases h : kv.2.isInteger <;>
      simp only [h, if_true, if_false, keysOf_cons, Bool.false_eq_true, ite_false] <;>
      rw [← assureAdvances, ih]

theorem normalizedAdv_mem {m : AdvMap} (h : normalizedAdv m = true) {kv : Char × JNum}
    (hkv : kv ∈ m) : kv.2.isIntRepr || !kv.2.isInteger := by
  exact List.all_eq_true.mp h kv hkv

theorem normalizedAdv_assureAdvances (m : AdvMap) :
    normalizedAdv (assureAdvances m) = true := by
  rw [normalizedAdv, List.all_eq_true]
  intro kv hkv
  rw [assureAdvances, List.mem_map] at hkv
  obtain ⟨kv0, _, he⟩ := hkv
  by_cases h : kv0.2.isInteger
  · rw [if_pos h] at he
    rw [← he]
    rfl
  · rw [if_neg h] at he
    rw [← he]
    simp [h]

theorem normalizedAdv_setKey {m : AdvMap} {v : JNum} (k : Char)
    (hm : normalizedAdv m = true) (hv : v.isIntRepr || !v.isInteger) :
    normalizedAdv (setKey m k v) = true := by
  rw [normalizedAdv, List.all_eq_true]
  intro kv hkv
  by_cases h : k ∈ keysOf m
  · rw [setKey_of_mem v h, List.mem_map] at hkv
    obtain ⟨kv0, hkv0, he⟩ := hkv
    by_cases h1 : kv0.1 = k
    · rw [if_pos h1] at he
      rw [← he]
      exact hv
    · rw [if_neg h1] at he
      rw [← he]
      exact normalizedAdv_mem hm hkv0
  · rw [setKey_of_not_mem v h, List.mem_append] at hkv
    rcases hkv with h1 | h1
    · exact normalizedAdv_mem hm h1
    · rw [List.mem_singleton] at h1
      rw [h1]
      exact hv

theorem normalizedAdv_updateAdv : ∀ (b a : AdvMap), normalizedAdv a = true →
    normalizedAdv b = true → normalizedAdv (updateAdv a b) = true := by
  intro b
  induction b with
  | nil => intro a ha _; exact ha
  | cons kv b ih =>
    intro a ha hb
    rw [updateAdv_cons]
    have hkv : kv.2.isIntRepr || !kv.2.isInteger :=
      normalizedAdv_mem hb (List.mem_cons_self _ _)
    have hb2 : normalizedAdv b = true := by
      rw [normalizedAdv, List.all_eq_true] at hb ⊢
      exact fun x hx => hb x (List.mem_cons_of_mem _ hx)
    exact ih (setKey a kv.1 kv.2) (normalizedAdv_setKey kv.1 ha hkv) hb2

theorem normalizedAdv_mergeAllR : ∀ (rest : List AdvMap) (m : AdvMap),
    normalizedAdv m = true → (∀ x ∈ rest, normalizedAdv x = true) →
    normalizedAdv (mergeAllR m rest) = true := by
  intro rest
  induction rest with
  | nil => intro m hm _; exact hm
  | cons r rs ih =>
    intro m hm h
    rw [mergeAllR]
    exact normalizedAdv_updateAdv _ m hm
      (ih r (h r (List.mem_cons_self _ _)) (fun x hx => h x (List.mem_cons_of_mem _ hx)))

theorem exceptBind_ok {α β : Type _} (a : α) (f : α → Except PyErr β) :
    (Except.ok a >>= f) = f a := rfl

theorem exceptBind_error {α β : Type _} (e : PyErr) (f : α → Except PyErr β) :
    ((Except.error e : Except PyErr α) >>= f) = Except.error e := rfl

theorem exceptBind_pure {α β : Type _} (a : α) (f : α → Except PyErr β) :
    ((pure a : Except PyErr α) >>= f) = f a := rfl

theorem exceptBind_throw {α β : Type _} (e : PyErr) (f : α → Except PyErr β) :
    ((throw e : Except PyErr α) >>= f) = Except.error e := rfl

theorem convert_font_zero (ctx : Ctx) (env : FontEnv) (fontId : String) :
    convert_font ctx env 0 fontId = .error PyErr.fuelOut := rfl

theorem convert_font_succ (ctx : Ctx) (env : FontEnv) (fuel : Nat) (fontId : String) :
    convert_font ctx env (fuel + 1) fontId =
      convert_font_step ctx env (convert_font ctx env fuel) fontId := rfl

theorem convert_font_step_eq {ctx : Ctx} {env : FontEnv}
    {recF : String → Except PyErr (String × WriteLog)} {fontId : String}
    {provs : List SrcProvider} {O : List OutProvider} {S : List AdvMap} {W : WriteLog}
    (henv : env fontId = some provs)
    (hb : bucketProviders ctx recF provs [] [] [] = .ok (O, S, W)) :
    convert_font_step ctx env recF fontId =
      .ok (fontId ++ ctx.suffix, W ++ [(fontId ++ ctx.suffix,
        O ++ (mergeWhile S).map (fun m => OutProvider.mk (.space m) Option.none))]) := by
  unfold convert_font_step
  rw [henv]
  show (bucketProviders ctx recF provs [] [] [] >>= _) = _
  rw [hb, exceptBind_ok]
  rfl

theorem convert_font_step_inv {ctx : Ctx} {env : FontEnv}
    {recF : String → Except PyErr (String × WriteLog)} {fontId nid : String}
    {ws : WriteLog}
    (h : convert_font_step ctx env recF fontId = .ok (nid, ws)) :
    ∃ provs O S W, env fontId = some provs ∧
      bucketProviders ctx recF provs [] [] [] = .ok (O, S, W) ∧
      nid = fontId ++ ctx.suffix ∧
      ws = W ++ [(fontId ++ ctx.suffix,
        O ++ (mergeWhile S).map (fun m => OutProvider.mk (.space m) Option.none))] := by
  unfold convert_font_step at h
  cases henv : env fontId with
  | none => rw [henv] at h; exact Except.noConfusion h
  | some provs =>
    rw [henv] at h
    rw [show ((match some provs with
      | Option.none => throw (PyErr.fontNotFound fontId)
      | some oldProviders => do
        let bs ← bucketProviders ctx recF oldProviders [] [] []
        let spaces := mergeWhile bs.2.1
        let outProviders := bs.1 ++ spaces.map (fun m => OutProvider.mk (.space m) Option.none)
        pure (fontId ++ ctx.suffix, bs.2.2 ++ [(fontId ++ ctx.suffix, outProviders)])) :
        Except PyErr (String × WriteLog)) =
      (bucketProviders ctx recF provs [] [] [] >>= fun bs =>
        pure (fontId ++ ctx.suffix, bs.2.2 ++ [(fontId ++ ctx.suffix,
          bs.1 ++ (mergeWhile bs.2.1).map (fun m => OutProvider.mk (.space m) Option.none))]))
      from rfl] at h
    cases hb : bucketProviders ctx recF provs [] [] [] with
    | error e => rw [hb, exceptBind_error] at h; exact Except.noConfusion h
    | ok bs =>
      rw [hb, exceptBind_ok] at h
      have h2 := Except.ok.inj h
      refine ⟨provs, bs.1, bs.2.1, bs.2.2, rfl, by rw [hb], ?_, ?_⟩
      · exact (congrArg Prod.fst h2).symm
      · exact (congrArg Prod.snd h2).symm

theorem bucketProviders_nil (ctx : Ctx) (recF : String → Except PyErr (String × WriteLog))
    (o : List OutProvider) (s : List AdvMap) (w : WriteLog) :
    bucketProviders ctx recF [] o s w = .ok (o, s, w) := rfl

theorem bucketProviders_cons (ctx : Ctx) (recF : String → Except PyErr (String × WriteLog))
    (p : SrcProvider) (rest : List SrcProvider)
    (o : List OutProvider) (s : List AdvMap) (w : WriteLog) :
    bucketProviders ctx recF (p :: rest) o s w =
      (convert_provider ctx recF p.body >>= fun r =>
        match r.1 with
        | Option.none => bucketProviders ctx recF rest o s (w ++ r.2)
        | some b0 =>
          match p.filter with
          | some f =>
            bucketProviders ctx recF rest (o ++ [⟨assure_integers b0, some f⟩]) s (w ++ r.2)
          | Option.none =>
            match assure_integers b0 with
            | .space m => bucketProviders ctx recF rest o (s ++ [m]) (w ++ r.2)
            | b => bucketProviders ctx recF rest (o ++ [⟨b, Option.none⟩]) s (w ++ r.2)) := rfl

theorem bucketProviders_cons_none {ctx : Ctx}
    {recF : String → Except PyErr (String × WriteLog)} {p : SrcProvider} {ws : WriteLog}
    (rest : List SrcProvider) (o : List OutProvider) (s : List AdvMap) (w : WriteLog)
    (h : convert_provider ctx recF p.body = .ok (Option.none, ws)) :
    bucketProviders ctx recF (p :: rest) o s w =
      bucketProviders ctx recF rest o s (w ++ ws) := by
  rw [bucketProviders_cons, h, exceptBind_ok]

theorem bucketProviders_cons_filter {ctx : Ctx}
    {recF : String → Except PyErr (String × WriteLog)} {p : SrcProvider} {ws : WriteLog}
    {b : OutBody} {f : String}
    (rest : List SrcProvider) (o : List OutProvider) (s : List AdvMap) (w : WriteLog)
    (hf : p.filter = some f)
    (h : convert_provider ctx recF p.body = .ok (some b, ws)) :
    bucketProviders ctx recF (p :: rest) o s w =
      bucketProviders ctx recF rest (o ++ [⟨assure_integers b, some f⟩]) s (w ++ ws) := by
  rw [bucketProviders_cons, h, exceptBind_ok, hf]

theorem bucketProviders_cons_space {ctx : Ctx}
    {recF : String → Except PyErr (String × WriteLog)} {p : SrcProvider} {ws : WriteLog}
    {b : OutBody} {m : AdvMap}
    (rest : List SrcProvider) (o : List OutProvider) (s : List AdvMap) (w : WriteLog)
    (hf : p.filter = Option.none) (hb : assure_integers b = .space m)
    (h : convert_provider ctx recF p.body = .ok (some b, ws)) :
    bucketProviders ctx recF (p :: rest) o s w =
      bucketProviders ctx recF rest o (s ++ [m]) (w ++ ws) := by
  cases b with
  | reference id => simp [assure_integers] at hb
  | space m0 =>
    rw [show assure_integers (.space m0) = .space (assureAdvances m0) from rfl] at hb
    have hm := OutBody.space.inj hb
    rw [bucketProviders_cons, h, exceptBind_ok, hf, ← hm]
    rfl

theorem bucketProviders_cons_other {ctx : Ctx}
    {recF : String → Except PyErr (String × WriteLog)} {p : SrcProvider} {ws : WriteLog}
    {b : OutBody} {rid : String}
    (rest : List SrcProvider) (o : List OutProvider) (s : List AdvMap) (w : WriteLog)
    (hf : p.filter = Option.none) (hb : assure_integers b = .reference rid)
    (h : convert_provider ctx recF p.body = .ok (some b, ws)) :
    bucketProviders ctx recF (p :: rest) o s w =
      bucketProviders ctx recF rest (o ++ [⟨.reference rid, Option.none⟩]) s (w ++ ws) := by
  cases b with
  | space m0 => simp [assure_integers] at hb
  | reference id =>
    rw [show assure_integers (.reference id) = .reference id from rfl] at hb
    have hid := OutBody.reference.inj hb
    rw [bucketProviders_cons, h, exceptBind_ok, hf, ← hid]
    rfl

theorem bucketProviders_cons_inv {ctx : Ctx}
    {recF : String → Except PyErr (String × WriteLog)} {p : SrcProvider}
    {rest : List SrcProvider} {o : List OutProvider} {s : List AdvMap} {w : WriteLog}
    {R : List OutProvider × List AdvMap × WriteLog}
    (h : bucketProviders ctx recF (p :: rest) o s w = .ok R) :
    ∃ r ws, convert_provider ctx recF p.body = .ok (r, ws) ∧
      ((r = Option.none ∧ bucketProviders ctx recF rest o s (w ++ ws) = .ok R) ∨
       (∃ b f, r = some b ∧ p.filter = some f ∧
          bucketProviders ctx recF rest (o ++ [⟨assure_integers b, some f⟩]) s (w ++ ws) = .ok R) ∨
       (∃ m0, r = some (.space m0) ∧ p.filter = Option.none ∧
          bucketProviders ctx recF rest o (s ++ [assureAdvances m0]) (w ++ ws) = .ok R) ∨
       (∃ rid, r = some (.reference rid) ∧ p.filter = Option.none ∧
          bucketProviders ctx recF rest (o ++ [⟨.reference rid, Option.none⟩]) s (w ++ ws) = .ok R)) := by
  cases hc : convert_provider ctx recF p.body with
  | error e =>
    rw [bucketProviders_cons, hc, exceptBind_error] at h
    exact Except.noConfusion h
  | ok rws =>
    obtain ⟨r, ws⟩ := rws
    refine ⟨r, ws, rfl, ?_⟩
    cases r with
    | none =>
      left
      exact ⟨rfl, by rw [← bucketProviders_cons_none rest o s w hc]; exact h⟩
    | some b =>
      cases hf : p.filter with
      | some f =>
        right; left
        exact ⟨b, f, rfl, rfl, by rw [← bucketProviders_cons_filter rest o s w hf hc]; exact h⟩
      | none =>
        cases b with
        | space m0 =>
          right; right; left
          refine ⟨m0, rfl, rfl, ?_⟩
          rw [← bucketProviders_cons_space rest o s w hf
            (show assure_integers (.space m0) = .space (assureAdvances m0) from rfl) hc]
          exact h
        | reference id =>
          right; right; right
          refine ⟨id, rfl, rfl, ?_⟩
          rw [← bucketProviders_cons_other rest o s w hf
            (show assure_integers (.reference id) = .reference id from rfl) hc]
          exact h

theorem bucketProviders_sub {ctx : Ctx}
    {recF : String → Except PyErr (String × WriteLog)} :
    ∀ (ps : List SrcProvider) (o : List OutProvider) (s : List AdvMap) (w : WriteLog)
      (O : List OutProvider) (S : List AdvMap) (W : WriteLog),
    bucketProviders ctx recF ps o s w = .ok (O, S, W) →
    (∀ x ∈ o, x ∈ O) ∧ (∀ x ∈ s, x ∈ S) ∧ (∀ x ∈ w, x ∈ W) := by
  intro ps
  induction ps with
  | nil =>
    intro o s w O S W h
    have h2 := Except.ok.inj h
    have ho : o = O := congrArg Prod.fst h2
    have hs : s = S := congrArg (fun t => t.2.1) h2
    have hw : w = W := congrArg (fun t => t.2.2) h2
    subst ho; subst hs; subst hw
    exact ⟨fun x hx => hx, fun x hx => hx, fun x hx => hx⟩
  | cons p rest ih =>
    intro o s w O S W h
    obtain ⟨r, ws, hc, hcase⟩ := bucketProviders_cons_inv h
    rcases hcase with ⟨_, h2⟩ | ⟨b, f, _, _, h2⟩ | ⟨m0, _, _, h2⟩ | ⟨rid, _, _, h2⟩
    · have hi := ih _ _ _ _ _ _ h2
      exact ⟨hi.1, hi.2.1, fun x hx => hi.2.2 x (List.mem_append_left _ hx)⟩
    · have hi := ih _ _ _ _ _ _ h2
      exact ⟨fun x hx => hi.1 x (List.mem_append_left _ hx), hi.2.1,
        fun x hx => hi.2.2 x (List.mem_append_left _ hx)⟩
    · have hi := ih _ _ _ _ _ _ h2
      exact ⟨hi.1, fun x hx => hi.2.1 x (List.mem_append_left _ hx),
        fun x hx => hi.2.2 x (List.mem_append_left _ hx)⟩
    · have hi := ih _ _ _ _ _ _ h2
      exact ⟨fun x hx => hi.1 x (List.mem_append_left _ hx), hi.2.1,
        fun x hx => hi.2.2 x (List.mem_append_left _ hx)⟩

theorem bucketProviders_mem {ctx : Ctx}
    {recF : String → Except PyErr (String × WriteLog)} :
    ∀ (ps : List SrcProvider) (o : List OutProvider) (s : List AdvMap) (w : WriteLog)
      (O : List OutProvider) (S : List AdvMap) (W : WriteLog) (p : SrcProvider),
    bucketProviders ctx recF ps o s w = .ok (O, S, W) → p ∈ ps →
    ∃ r ws, convert_provider ctx recF p.body = .ok (r, ws) ∧ (∀ x ∈ ws, x ∈ W) ∧
      ∀ b, r = some b →
        ((∀ f, p.filter = some f → OutProvider.mk (assure_integers b) (some f) ∈ O) ∧
         (p.filter = Option.none →
           (∀ m0, b = .space m0 → assureAdvances m0 ∈ S) ∧
           (∀ rid, b = .reference rid → OutProvider.mk (.reference rid) Option.none ∈ O))) := by
  intro ps
  induction ps with
  | nil => intro o s w O S W p _ hp; cases hp
  | cons p0 rest ih =>
    intro o s w O S W p h hp
    rcases List.mem_cons.mp hp with hph | hpt
    · subst hph
      obtain ⟨r, ws, hc, hcase⟩ := bucketProviders_cons_inv h
      rcases hcase with ⟨hr, h2⟩ | ⟨b, f, hr, hf, h2⟩ | ⟨m0, hr, hf, h2⟩ | ⟨rid, hr, hf, h2⟩
      · subst hr
        have hsub := bucketProviders_sub rest _ _ _ _ _ _ h2
        exact ⟨Option.none, ws, hc,
          fun x hx => hsub.2.2 x (List.mem_append_right _ hx),
          fun b hb => Option.noConfusion hb⟩
      · subst hr
        have hsub := bucketProviders_sub rest _ _ _ _ _ _ h2
        refine ⟨some b, ws, hc,
          fun x hx => hsub.2.2 x (List.mem_append_right _ hx), ?_⟩
        intro b2 hb2
        have hbb : b2 = b := (Option.some.inj hb2).symm
        subst hbb
        constructor
        · intro f2 hf2
          have : f2 = f := (Option.some.inj (hf.symm.trans hf2)).symm
          subst this
          exact hsub.1 _ (List.mem_append_right _ (List.mem_singleton.mpr rfl))
        · intro hnone
          rw [hf] at hnone
          exact Option.noConfusion hnone
      · subst hr
        have hsub := bucketProviders_sub rest _ _ _ _ _ _ h2
        refine ⟨some (.space m0), ws, hc,
          fun x hx => hsub.2.2 x (List.mem_append_right _ hx), ?_⟩
        intro b2 hb2
        have hbb : b2 = OutBody.space m0 := (Option.some.inj hb2).symm
        subst hbb
        constructor
        · intro f2 hf2
          rw [hf] at hf2
          exact Option.noConfusion hf2
        · intro _
          constructor
          · intro m2 hm2
            have : m2 = m0 := (OutBody.space.inj hm2).symm
            subst this
            exact hsub.2.1 _ (List.mem_append_right _ (List.mem_singleton.mpr rfl))
          · intro rid hrid
            exact OutBody.noConfusion hrid
      · subst hr
        have hsub := bucketProviders_sub rest _ _ _ _ _ _ h2
        refine ⟨some (.reference rid), ws, hc,
          fun x hx => hsub.2.2 x (List.mem_append_right _ hx), ?_⟩
        intro b2 hb2
        have hbb : b2 = OutBody.reference rid := (Option.some.inj hb2).symm
        subst hbb
        constructor
        · intro f2 hf2
          rw [hf] at hf2
          exact Option.noConfusion hf2
        · intro _
          constructor
          · intro m2 hm2
            exact OutBody.noConfusion hm2
          · intro rid2 hrid2
            have : rid2 = rid := (OutBody.reference.inj hrid2).symm
            subst this
            exact hsub.1 _ (List.mem_append_right _ (List.mem_singleton.mpr rfl))
    · obtain ⟨r, ws, hc, hcase⟩ := bucketProviders_cons_inv h
      rcases hcase with ⟨_, h2⟩ | ⟨b, f, _, _, h2⟩ | ⟨m0, _, _, h2⟩ | ⟨rid, _, _, h2⟩ <;>
        exact ih _ _ _ _ _ _ p h2 hpt

theorem keysOf_map_snd (f : Char × JNum → JNum) (m : AdvMap) :
    keysOf (m.map (fun kv => (kv.1, f kv))) = keysOf m := by
  induction m with
  | nil => rfl
  | cons kv m ih => simpa [keysOf] using congrArg (List.cons kv.1) ih

theorem convert_provider_reference_inv {ctx : Ctx}
    {recF : String → Except PyErr (String × WriteLog)} {R : String}
    {r : Option OutBody} {ws : WriteLog}
    (h : convert_provider ctx recF (SrcBody.reference R) = .ok (r, ws)) :
    ∃ rid, recF R = .ok (rid, ws) ∧ r = some (.reference rid) := by
  have hdef : convert_provider ctx recF (SrcBody.reference R) =
      (recF R >>= fun r2 => pure (some (.reference r2.1), r2.2)) := rfl
  rw [hdef] at h
  cases hr : recF R with
  | error e => rw [hr, exceptBind_error] at h; exact Except.noConfusion h
  | ok rr =>
    obtain ⟨rid, rlog⟩ := rr
    rw [hr, exceptBind_ok] at h
    have h2 := Except.ok.inj h
    have hw : rlog = ws := congrArg Prod.snd h2
    have hrr : some (OutBody.reference rid) = r := congrArg Prod.fst h2
    exact ⟨rid, by rw [hw], hrr.symm⟩

theorem convert_bitmap_provider_inv {factor : ℚ} {chars : List (List Char)}
    {height : ℤ} {img : Img} {body : OutBody}
    (h : convert_bitmap_provider factor chars height img = .ok body) :
    ∃ adv, body = .space adv ∧
      chars.enum.foldlM (bitmapRowStep factor chars height img) [] = .ok adv := by
  unfold convert_bitmap_provider at h
  cases hf : chars.enum.foldlM (bitmapRowStep factor chars height img) [] with
  | error e => rw [hf, exceptBind_error] at h; exact Except.noConfusion h
  | ok adv => rw [hf, exceptBind_ok] at h; exact ⟨adv, (Except.ok.inj h).symm, rfl⟩

theorem convert_unihex_provider_some_inv {mode : UnihexMode} {factor : ℚ}
    {entries : List (List Char × List Char)} {ovs : List SizeOverride} {body : OutBody}
    (h : convert_unihex_provider mode factor entries ovs = .ok (some body)) :
    mode ≠ .none ∧ ∃ adv, body = .space adv ∧ adv ≠ [] ∧
      unihexAdvances mode factor (overrideTriples ovs) entries = .ok adv := by
  unfold convert_unihex_provider at h
  by_cases hm : mode = .none
  · rw [if_pos hm] at h
    exact absurd (Except.ok.inj h) (by simp)
  · rw [if_neg hm] at h
    cases ha : unihexAdvances mode factor (overrideTriples ovs) entries with
    | error e => rw [ha, exceptBind_error] at h; exact Except.noConfusion h
    | ok adv =>
      rw [ha, exceptBind_ok] at h
      by_cases he : adv.isEmpty
      · rw [if_pos he] at h
        exact absurd (Except.ok.inj h) (by simp)
      · rw [if_neg he] at h
        have h2 := Except.ok.inj h
        refine ⟨hm, adv, (Option.some.inj h2).symm, ?_, rfl⟩
        intro hnil
        rw [hnil] at he
        exact he rfl

theorem unihexStep_nodup {mode : UnihexMode} {factor : ℚ}
    {triples : List (Nat × Nat × ℤ)} {m : AdvMap} {e : List Char × List Char}
    {m2 : AdvMap} (hm : (keysOf m).Nodup)
    (hs : unihexStep mode factor triples m e = .ok m2) : (keysOf m2).Nodup := by
  have hdef : unihexStep mode factor triples m e =
      (unihexEntryContrib mode factor triples e >>= fun c =>
        match c with
        | Option.none => pure m
        | some kv => pure (setKey m kv.1 kv.2)) := rfl
  rw [hdef] at hs
  cases hc : unihexEntryContrib mode factor triples e with
  | error e2 => rw [hc, exceptBind_error] at hs; exact Except.noConfusion hs
  | ok c =>
    rw [hc, exceptBind_ok] at hs
    cases c with
    | none => rw [← Except.ok.inj hs]; exact hm
    | some kv => rw [← Except.ok.inj hs]; exact nodup_keysOf_setKey kv.1 kv.2 hm

theorem unihexAdvances_nodup {mode : UnihexMode} {factor : ℚ}
    {triples : List (Nat × Nat × ℤ)} {entries : List (List Char × List Char)}
    {adv : AdvMap} (h : unihexAdvances mode factor triples entries = .ok adv) :
    (keysOf adv).Nodup :=
  exceptFoldlMInv (unihexStep mode factor triples) (fun m => (keysOf m).Nodup)
    (fun m e m2 hm hs => unihexStep_nodup hm hs) entries [] adv List.nodup_nil h

theorem bitmapCellStep_nodup {factor : ℚ} {img : Img} {charWidth charHeight : Nat}
    {height : ℤ} {y : Nat} {m : AdvMap} {xchar : Nat × Char} {m2 : AdvMap}
    (hm : (keysOf m).Nodup)
    (hs : bitmapCellStep factor img charWidth charHeight height y m xchar = .ok m2) :
    (keysOf m2).Nodup := by
  unfold bitmapCellStep at hs
  by_cases h1 : xchar.2 = Char.ofNat 0 ∨ xchar.2 = ' '
  · rw [if_pos h1] at hs
    rw [← Except.ok.inj hs]
    exact hm
  · rw [if_neg h1] at hs
    by_cases h2 : charHeight = 0
    · rw [if_pos h2] at hs
      exact Except.noConfusion hs
    · rw [if_neg h2] at hs
      rw [← Except.ok.inj hs]
      exact nodup_keysOf_setKey _ _ hm

theorem bitmapRowStep_nodup {factor : ℚ} {chars : List (List Char)} {height : ℤ}
    {img : Img} {m0 : AdvMap} {yline : Nat × List Char} {m2 : AdvMap}
    (hm : (keysOf m0).Nodup)
    (hs : bitmapRowStep factor chars height img m0 yline = .ok m2) :
    (keysOf m2).Nodup := by
  unfold bitmapRowStep at hs
  by_cases h1 : yline.2.length = 0
  · rw [if_pos h1] at hs
    exact Except.noConfusion hs
  · rw [if_neg h1] at hs
    exact exceptFoldlMInv _ (fun m => (keysOf m).Nodup)
      (fun m x m3 hm2 hs2 => bitmapCellStep_nodup hm2 hs2) _ m0 m2 hm hs

theorem convert_provider_space_nodup {ctx : Ctx}
    {recF : String → Except PyErr (String × WriteLog)} {b : SrcBody}
    {m : AdvMap} {ws : WriteLog}
    (h : convert_provider ctx recF b = .ok (some (.space m), ws))
    (hn : srcSpaceNodup b = true) : (keysOf m).Nodup := by
  cases b with
  | reference R =>
    obtain ⟨rid, _, hr⟩ := convert_provider_reference_inv h
    exact OutBody.noConfusion (Option.some.inj hr)
  | space advances =>
    have h2 := Except.ok.inj h
    have hb := congrArg Prod.fst h2
    have hmm :
        advances.map (fun kv => (kv.1, JNum.jfloat (kv.2.val * ctx.widthFactor))) = m :=
      OutBody.space.inj (Option.some.inj hb)
    rw [← hmm, keysOf_map_snd (fun kv => JNum.jfloat (kv.2.val * ctx.widthFactor))]
    exact of_decide_eq_true hn
  | ttf faceChars skip =>
    have h2 := Except.ok.inj h
    have hb := congrArg Prod.fst h2
    have hmm := OutBody.space.inj (Option.some.inj hb)
    rw [← hmm]
    exact foldlInv _ (fun m => (keysOf m).Nodup)
      (fun m p hm => by
        by_cases hc : Char.ofNat p.1 ∈ skip
        · simp only [if_pos hc]; exact hm
        · simp only [if_neg hc]; exact nodup_keysOf_setKey (Char.ofNat p.1) _ hm)
      faceChars [] List.nodup_nil
  | bitmap chars height img =>
    have hdef : convert_provider ctx recF (SrcBody.bitmap chars height img) =
        (convert_bitmap_provider ctx.widthFactor chars height img >>= fun b2 =>
          pure (some b2, ([] : WriteLog))) := rfl
    rw [hdef] at h
    cases hc : convert_bitmap_provider ctx.widthFactor chars height img with
    | error e => rw [hc, exceptBind_error] at h; exact Except.noConfusion h
    | ok body =>
      rw [hc, exceptBind_ok] at h
      have h2 := congrArg Prod.fst (Except.ok.inj h)
      have hbm : body = .space m := Option.some.inj h2
      rw [hbm] at hc
      obtain ⟨adv, hadv, hfold⟩ := convert_bitmap_provider_inv hc
      have : adv = m := (OutBody.space.inj hadv).symm
      subst this
      exact exceptFoldlMInv _ (fun m => (keysOf m).Nodup)
        (fun m x m3 hm2 hs2 => bitmapRowStep_nodup hm2 hs2) _ [] adv List.nodup_nil hfold
  | unihex entries ovs =>
    have hdef : convert_provider ctx recF (SrcBody.unihex entries ovs) =
        (convert_unihex_provider ctx.unihexMode ctx.widthFactor entries ovs >>= fun r =>
          pure (r, ([] : WriteLog))) := rfl
    rw [hdef] at h
    cases hc : convert_unihex_provider ctx.unihexMode ctx.widthFactor entries ovs with
    | error e => rw [hc, exceptBind_error] at h; exact Except.noConfusion h
    | ok r =>
      rw [hc, exceptBind_ok] at h
      have h2 : r = some (OutBody.space m) := congrArg Prod.fst (Except.ok.inj h)
      rw [h2] at hc
      obtain ⟨_, adv, hadv, _, ha⟩ := convert_unihex_provider_some_inv hc
      have : adv = m := (OutBody.space.inj hadv).symm
      subst this
      exact unihexAdvances_nodup ha
  | unknown t => exact Except.noConfusion h

theorem bucketProviders_spaces_nodup {ctx : Ctx}
    {recF : String → Except PyErr (String × WriteLog)} :
    ∀ (ps : List SrcProvider) (o : List OutProvider) (s : List AdvMap) (w : WriteLog)
      (O : List OutProvider) (S : List AdvMap) (W : WriteLog),
    bucketProviders ctx recF ps o s w = .ok (O, S, W) →
    (∀ p ∈ ps, srcSpaceNodup p.body = true) →
    (∀ m ∈ s, (keysOf m).Nodup) → ∀ m ∈ S, (keysOf m).Nodup := by
  intro ps
  induction ps with
  | nil =>
    intro o s w O S W h _ hs
    have h2 := Except.ok.inj h
    have hss : s = S := congrArg (fun t => t.2.1) h2
    exact fun m hm => hs m (hss ▸ hm)
  | cons p rest ih =>
    intro o s w O S W h hps hs
    have hps2 : ∀ q ∈ rest, srcSpaceNodup q.body = true :=
      fun q hq => hps q (List.mem_cons_of_mem _ hq)
    obtain ⟨r, ws, hc, hcase⟩ := bucketProviders_cons_inv h
    rcases hcase with ⟨_, h2⟩ | ⟨b, f, _, _, h2⟩ | ⟨m0, hr, _, h2⟩ | ⟨rid, _, _, h2⟩
    · exact ih _ _ _ _ _ _ h2 hps2 hs
    · exact ih _ _ _ _ _ _ h2 hps2 hs
    · subst hr
      refine ih _ _ _ _ _ _ h2 hps2 ?_
      intro m hm
      rcases List.mem_append.mp hm with hm1 | hm1
      · exact hs m hm1
      · rw [List.mem_singleton] at hm1
        subst hm1
        rw [keysOf_assureAdvances]
        exact convert_provider_space_nodup hc (hps p (List.mem_cons_self _ _))
    · exact ih _ _ _ _ _ _ h2 hps2 hs

theorem assure_integers_space_normalized {b : OutBody} {m : AdvMap}
    (h : assure_integers b = .space m) : normalizedAdv m = true := by
  cases b with
  | reference id => exact OutBody.noConfusion h
  | space m0 =>
    have : assureAdvances m0 = m :=
      OutBody.space.inj (show OutBody.space (assureAdvances m0) = .space m from h)
    rw [← this]
    exact normalizedAdv_assureAdvances m0

theorem bucketProviders_normalized {ctx : Ctx}
    {recF : String → Except PyErr (String × WriteLog)} :
    ∀ (ps : List SrcProvider) (o : List OutProvider) (s : List AdvMap) (w : WriteLog)
      (O : List OutProvider) (S : List AdvMap) (W : WriteLog),
    bucketProviders ctx recF ps o s w = .ok (O, S, W) →
    (∀ p ∈ o, ∀ m, p.body = OutBody.space m → normalizedAdv m = true) →
    (∀ m ∈ s, normalizedAdv m = true) →
    (∀ p ∈ O, ∀ m, p.body = OutBody.space m → normalizedAdv m = true) ∧
      (∀ m ∈ S, normalizedAdv m = true) := by
  intro ps
  induction ps with
  | nil =>
    intro o s w O S W h ho hs
    have h2 := Except.ok.inj h
    have hoo : o = O := congrArg Prod.fst h2
    have hss : s = S := congrArg (fun t => t.2.1) h2
    exact ⟨fun p hp => ho p (hoo ▸ hp), fun m hm => hs m (hss ▸ hm)⟩
  | cons p rest ih =>
    intro o s w O S W h ho hs
    obtain ⟨r, ws, hc, hcase⟩ := bucketProviders_cons_inv h
    rcases hcase with ⟨_, h2⟩ | ⟨b, f, _, _, h2⟩ | ⟨m0, _, _, h2⟩ | ⟨rid, _, _, h2⟩
    · exact ih _ _ _ _ _ _ h2 ho hs
    · refine ih _ _ _ _ _ _ h2 ?_ hs
      intro q hq m hqm
      rcases List.mem_append.mp hq with h1 | h1
      · exact ho q h1 m hqm
      · rw [List.mem_singleton] at h1
        subst h1
        exact assure_integers_space_normalized hqm
    · refine ih _ _ _ _ _ _ h2 ho ?_
      intro m hm
      rcases List.mem_append.mp hm with h1 | h1
      · exact hs m h1
      · rw [List.mem_singleton] at h1
        subst h1
        exact normalizedAdv_assureAdvances m0
    · refine ih _ _ _ _ _ _ h2 ?_ hs
      intro q hq m hqm
      rcases List.mem_append.mp hq with h1 | h1
      · exact ho q h1 m hqm
      · rw [List.mem_singleton] at h1
        subst h1
        exact OutBody.noConfusion hqm

theorem convert_provider_writes_prop {ctx : Ctx}
    {recF : String → Except PyErr (String × WriteLog)}
    (P : String × List OutProvider → Prop)
    (hrec : ∀ id res, recF id = .ok res → ∀ x ∈ res.2, P x) :
    ∀ (b : SrcBody) (r : Option OutBody) (ws : WriteLog),
    convert_provider ctx recF b = .ok (r, ws) → ∀ x ∈ ws, P x := by
  intro b r ws h
  cases b with
  | reference R =>
    obtain ⟨rid, hr, _⟩ := convert_provider_reference_inv h
    exact hrec R (rid, ws) hr
  | space advances =>
    have hw : ([] : WriteLog) = ws := congrArg Prod.snd (Except.ok.inj h)
    rw [← hw]
    exact fun x hx => absurd hx (List.not_mem_nil x)
  | ttf faceChars skip =>
    have hw : ([] : WriteLog) = ws := congrArg Prod.snd (Except.ok.inj h)
    rw [← hw]
    exact fun x hx => absurd hx (List.not_mem_nil x)
  | bitmap chars height img =>
    have hdef : convert_provider ctx recF (SrcBody.bitmap chars height img) =
        (convert_bitmap_provider ctx.widthFactor chars height img >>= fun b2 =>
          pure (some b2, ([] : WriteLog))) := rfl
    rw [hdef] at h
    cases hc : convert_bitmap_provider ctx.widthFactor chars height img with
    | error e => rw [hc, exceptBind_error] at h; exact Except.noConfusion h
    | ok body =>
      rw [hc, exceptBind_ok] at h
      have hw : ([] : WriteLog) = ws := congrArg Prod.snd (Except.ok.inj h)
      rw [← hw]
      exact fun x hx => absurd hx (List.not_mem_nil x)
  | unihex entries ovs =>
    have hdef : convert_provider ctx recF (SrcBody.unihex entries ovs) =
        (convert_unihex_provider ctx.unihexMode ctx.widthFactor entries ovs >>= fun r2 =>
          pure (r2, ([] : WriteLog))) := rfl
    rw [hdef] at h
    cases hc : convert_unihex_provider ctx.unihexMode ctx.widthFactor entries ovs with
    | error e => rw [hc, exceptBind_error] at h; exact Except.noConfusion h
    | ok r2 =>
      rw [hc, exceptBind_ok] at h
      have hw : ([] : WriteLog) = ws := congrArg Prod.snd (Except.ok.inj h)
      rw [← hw]
      exact fun x hx => absurd hx (List.not_mem_nil x)
  | unknown t => exact Except.noConfusion h

theorem bucketProviders_writes_prop {ctx : Ctx}
    {recF : String → Except PyErr (String × WriteLog)}
    (P : String × List OutProvider → Prop)
    (hrec : ∀ id res, recF id = .ok res → ∀ x ∈ res.2, P x) :
    ∀ (ps : List SrcProvider) (o : List OutProvider) (s : List AdvMap) (w : WriteLog)
      (O : List OutProvider) (S : List AdvMap) (W : WriteLog),
    bucketProviders ctx recF ps o s w = .ok (O, S, W) →
    (∀ x ∈ w, P x) → ∀ x ∈ W, P x := by
  intro ps
  induction ps with
  | nil =>
    intro o s w O S W h hw
    have hww : w = W := congrArg (fun t => t.2.2) (Except.ok.inj h)
    exact fun x hx => hw x (hww ▸ hx)
  | cons p rest ih =>
    intro o s w O S W h hw
    obtain ⟨r, ws, hc, hcase⟩ := bucketProviders_cons_inv h
    have hw2 : ∀ x ∈ w ++ ws, P x := by
      intro x hx
      rcases List.mem_append.mp hx with h1 | h1
      · exact hw x h1
      · exact convert_provider_writes_prop P hrec p.body r ws hc x h1
    rcases hcase with ⟨_, h2⟩ | ⟨b, f, _, _, h2⟩ | ⟨m0, _, _, h2⟩ | ⟨rid, _, _, h2⟩ <;>
      exact ih _ _ _ _ _ _ h2 hw2

theorem convert_font_writes_normalized :
    ∀ (fuel : Nat) (ctx : Ctx) (env : FontEnv) (fontId nid : String) (ws : WriteLog),
    convert_font ctx env fuel fontId = .ok (nid, ws) →
    ∀ entry ∈ ws, ∀ p ∈ entry.2, ∀ m, p.body = OutBody.space m →
      normalizedAdv m = true := by
  intro fuel
  induction fuel with
  | zero => intro ctx env fontId nid ws h; exact Except.noConfusion h
  | succ fuel ih =>
    intro ctx env fontId nid ws h
    rw [convert_font_succ] at h
    obtain ⟨provs, O, S, W, henv, hb, hnid, hws⟩ := convert_font_step_inv h
    subst hws
    intro entry hentry
    rcases List.mem_append.mp hentry with hW | hlast
    · refine bucketProviders_writes_prop
        (fun e2 => ∀ p ∈ e2.2, ∀ m, p.body = OutBody.space m → normalizedAdv m = true)
        ?_ provs [] [] [] O S W hb
        (fun x hx => absurd hx (List.not_mem_nil x)) entry hW
      intro id res hr
      exact ih ctx env id res.1 res.2 (by rw [hr])
    · rw [List.mem_singleton] at hlast
      subst hlast
      intro p hp m hpm
      have hnorm := bucketProviders_normalized provs [] [] [] O S W hb
        (fun q hq => absurd hq (List.not_mem_nil q))
        (fun m2 hm2 => absurd hm2 (List.not_mem_nil m2))
      rcases List.mem_append.mp hp with hO | hmerged
      · exact hnorm.1 p hO m hpm
      · obtain ⟨m2, hm2, hpe⟩ := List.mem_map.mp hmerged
        have hbody : OutBody.space m2 = OutBody.space m := by
          rw [← hpm, ← hpe]
        have hmm : m2 = m := OutBody.space.inj hbody
        subst hmm
        cases S with
        | nil => rw [mergeWhile_nil] at hm2; cases hm2
        | cons m3 rest =>
          rw [mergeWhile_cons] at hm2
          rw [List.mem_singleton] at hm2
          subst hm2
          exact normalizedAdv_mergeAllR rest m3
            (hnorm.2 m3 (List.mem_cons_self _ _))
            (fun x hx => hnorm.2 x (List.mem_cons_of_mem _ hx))

theorem pyTrunc_intCast (n : ℤ) : pyTrunc ((n : ℤ) : ℚ) = n := by
  rw [pyTrunc, Rat.num_intCast, Rat.den_intCast, Nat.cast_one, Int.tdiv_one]

theorem pyTrunc_den_one {q : ℚ} (h : q.den = 1) : ((pyTrunc q : ℤ) : ℚ) = q := by
  rw [pyTrunc, h, Nat.cast_one, Int.tdiv_one]
  exact Rat.coe_int_num_of_den_eq_one h

theorem assureEntry_val (kv : Char × JNum) :
    ((if kv.2.isInteger then (kv.1, JNum.jint (pyTrunc kv.2.val)) else kv).1,
     (if kv.2.isInteger then (kv.1, JNum.jint (pyTrunc kv.2.val)) else kv).2.val) =
    (kv.1, kv.2.val) := by
  cases hv : kv.2 with
  | jint n =>
    rw [if_pos (show (JNum.jint n).isInteger = true from rfl)]
    show (kv.1, ((pyTrunc ((n : ℤ) : ℚ) : ℤ) : ℚ)) = (kv.1, ((n : ℤ) : ℚ))
    rw [pyTrunc_intCast]
  | jfloat q =>
    by_cases hq : q.den = 1
    · rw [if_pos (show (JNum.jfloat q).isInteger = true from beq_iff_eq.mpr hq)]
      show (kv.1, ((pyTrunc q : ℤ) : ℚ)) = (kv.1, q)
      rw [pyTrunc_den_one hq]
    · rw [if_neg (show ¬(JNum.jfloat q).isInteger = true by simp [JNum.isInteger, hq])]
      rw [hv]

/-- C1: `convert_font` emits `other_providers ++ merged space providers`:
all converted filter-less space providers collapse into exactly one space
provider placed after all other providers (appended only when at least one
exists), whose advance map is the fold, in original order, of the individual
advance maps with later providers' entries overwriting earlier ones at
matching characters; in particular the space providers `{a:1}`, `{a:2, b:3}`,
`{c:4}` with factor 1 merge to the single map `{a:2, b:3, c:4}`. -/
theorem c1_merge_order :
    (∀ (ctx : Ctx) (env : FontEnv) (fuel : Nat) (fontId : String)
       (provs : List SrcProvider) (others : List OutProvider) (spaces : List AdvMap)
       (ws0 : WriteLog),
      env fontId = some provs →
      (∀ p ∈ provs, srcSpaceNodup p.body = true) →
      bucketProviders ctx (convert_font ctx env fuel) provs [] [] [] =
        .ok (others, spaces, ws0) →
      convert_font ctx env (fuel + 1) fontId = .ok (fontId ++ ctx.suffix,
        ws0 ++ [(fontId ++ ctx.suffix,
          others ++ (match spaces with
            | [] => []
            | m :: rest =>
              [OutProvider.mk (.space (rest.foldl updateAdv m)) Option.none]))]))
  ∧ convert_font c1Ctx c1Env 1 "f" = .ok ("f_s", [("f_s",
      [OutProvider.mk
        (.space [('a', JNum.jint 2), ('b', JNum.jint 3), ('c', JNum.jint 4)])
        Option.none])]) := by
  constructor
  · intro ctx env fuel fontId provs others spaces ws0 henv hnod hb
    rw [convert_font_succ, convert_font_step_eq henv hb]
    have hnodS : ∀ m ∈ spaces, (keysOf m).Nodup :=
      bucketProviders_spaces_nodup provs [] [] [] others spaces ws0 hb hnod
        (fun m hm => absurd hm (List.not_mem_nil m))
    cases spaces with
    | nil => rw [mergeWhile_nil]; rfl
    | cons m rest =>
      rw [mergeWhile_cons,
        mergeAllR_foldl m (fun x hx => hnodS x (List.mem_cons_of_mem _ hx))]
      rfl
  · with_unfolding_all rfl

theorem c1_witness :
    (c1Env "f" = some c1Provs)
    ∧ (∀ p ∈ c1Provs, srcSpaceNodup p.body = true)
    ∧ bucketProviders c1Ctx (convert_font c1Ctx c1Env 0) c1Provs [] [] [] =
        .ok ([], [[('a', JNum.jint 1)], [('a', JNum.jint 2), ('b', JNum.jint 3)],
          [('c', JNum.jint 4)]], [])
    ∧ convert_font c1Ctx c1Env 1 "f" = .ok ("f_s", [("f_s",
        [OutProvider.mk
          (.space [('a', JNum.jint 2), ('b', JNum.jint 3), ('c', JNum.jint 4)])
          Option.none])]) :=
  ⟨rfl, by decide, by with_unfolding_all rfl, by
    have h := c1_merge_order.1 c1Ctx c1Env 0 "f" c1Provs []
      [[('a', JNum.jint 1)], [('a', JNum.jint 2), ('b', JNum.jint 3)],
        [('c', JNum.jint 4)]] []
      rfl (by decide) (by with_unfolding_all rfl)
    rw [h]
    with_unfolding_all rfl⟩

/-- C9: the numeric normalization is idempotent: on a space provider whose
advance map is already normalized, `assure_integers` changes nothing. -/
theorem c9_idempotent {m : AdvMap} (h : normalizedAdv m = true) :
    assure_integers (OutBody.space m) = OutBody.space m := by
  rw [show assure_integers (OutBody.space m) = OutBody.space (assureAdvances m) from rfl]
  congr 1
  induction m with
  | nil => rfl
  | cons kv m ih =>
    have hkv := normalizedAdv_mem h (List.mem_cons_self kv m)
    have ht : normalizedAdv m = true := by
      rw [normalizedAdv, List.all_eq_true] at h ⊢
      exact fun x hx => h x (List.mem_cons_of_mem _ hx)
    rw [assureAdvances, List.map_cons]
    rw [show assureAdvances m = List.map
      (fun kv => if kv.2.isInteger then (kv.1, JNum.jint (pyTrunc kv.2.val)) else kv) m
      from rfl] at ih
    rw [ih ht]
    congr 1
    cases hv : kv.2 with
    | jint n =>
      rw [if_pos (show (JNum.jint n).isInteger = true from rfl)]
      show (kv.1, JNum.jint (pyTrunc ((n : ℤ) : ℚ))) = kv
      rw [pyTrunc_intCast, ← hv]
    | jfloat q =>
      rw [hv] at hkv
      have hkv2 : (JNum.jfloat q).isIntRepr = true ∨ (JNum.jfloat q).isInteger = false := by
        simpa using hkv
      have hfalse : (JNum.jfloat q).isInteger = false := by
        rcases hkv2 with h1 | h1
        · exact absurd h1 (by simp [JNum.isIntRepr])
        · exact h1
      rw [if_neg (show ¬(JNum.jfloat q).isInteger = true by rw [hfalse]; simp)]

theorem c9_witness :
    normalizedAdv [('a', JNum.jint 2), ('b', JNum.jfloat (3/2))] = true ∧
    assure_integers (OutBody.space [('a', JNum.jint 2), ('b', JNum.jfloat (3/2))]) =
      OutBody.space [('a', JNum.jint 2), ('b', JNum.jfloat (3/2))] :=
  ⟨by with_unfolding_all rfl, c9_idempotent (by with_unfolding_all rfl)⟩

/-- C5: every space provider of every emitted definition — filtered space
providers and the final merged one included — has every mathematically whole
advance value stored as an integer; the normalization preserves every
entry's numeric value; and providers of other kinds are left untouched. -/
theorem c5_normalized :
    (∀ (fuel : Nat) (ctx : Ctx) (env : FontEnv) (fontId nid : String) (ws : WriteLog),
      convert_font ctx env fuel fontId = .ok (nid, ws) →
      ∀ entry ∈ ws, ∀ p ∈ entry.2, ∀ m, p.body = OutBody.space m →
        normalizedAdv m = true)
  ∧ (∀ m : AdvMap, (assureAdvances m).map (fun kv => (kv.1, kv.2.val)) =
      m.map (fun kv => (kv.1, kv.2.val)))
  ∧ (∀ b : OutBody, (∀ m, b ≠ OutBody.space m) → assure_integers b = b) := by
  refine ⟨convert_font_writes_normalized, ?_, ?_⟩
  · intro m
    rw [assureAdvances, List.map_map]
    apply List.map_congr_left
    intro kv _
    exact assureEntry_val kv
  · intro b hb
    cases b with
    | reference id => rfl
    | space m => exact absurd rfl (hb m)

theorem c5_witness :
    convert_font c5Ctx c5Env 1 "f" = .ok ("f_s", [("f_s",
      [OutProvider.mk (OutBody.space [('a', JNum.jint 3), ('b', JNum.jfloat (5/2))])
        (some "flt"),
       OutProvider.mk (OutBody.space [('c', JNum.jint 6)]) Option.none])])
    ∧ (∀ entry ∈ [("f_s",
        [OutProvider.mk (OutBody.space [('a', JNum.jint 3), ('b', JNum.jfloat (5/2))])
          (some "flt"),
         OutProvider.mk (OutBody.space [('c', JNum.jint 6)]) Option.none])],
        ∀ p ∈ entry.2, ∀ m, p.body = OutBody.space m → normalizedAdv m = true) :=
  ⟨by with_unfolding_all rfl,
   fun entry he => c5_normalized.1 1 c5Ctx c5Env "f" "f_s" _
     (by with_unfolding_all rfl) entry he⟩

/-- C6: a source provider carrying a filter has the filter copied verbatim
onto its converted provider, which is placed into the non-space bucket
regardless of its converted kind and thus never merged: it remains a
standalone entry of the emitted definition even when filter-less space
providers exist. -/
theorem c6_filter :
    (∀ (ctx : Ctx) (recF : String → Except PyErr (String × WriteLog)) (p : SrcProvider)
       (rest : List SrcProvider) (o : List OutProvider) (s : List AdvMap) (w : WriteLog)
       (f : String) (b : OutBody) (ws : WriteLog),
      p.filter = some f →
      convert_provider ctx recF p.body = .ok (some b, ws) →
      bucketProviders ctx recF (p :: rest) o s w =
        bucketProviders ctx recF rest (o ++ [⟨assure_integers b, some f⟩]) s (w ++ ws))
  ∧ (∀ (ctx : Ctx) (env : FontEnv) (fuel : Nat) (fontId nid : String) (ws : WriteLog)
       (provs : List SrcProvider) (p : SrcProvider) (f : String) (b : OutBody)
       (pws : WriteLog),
      env fontId = some provs → p ∈ provs → p.filter = some f →
      convert_provider ctx (convert_font ctx env fuel) p.body = .ok (some b, pws) →
      convert_font ctx env (fuel + 1) fontId = .ok (nid, ws) →
      ∃ ws0 outDef, ws = ws0 ++ [(nid, outDef)] ∧
        OutProvider.mk (assure_integers b) (some f) ∈ outDef) := by
  constructor
  · intro ctx recF p rest o s w f b ws hf hc
    exact bucketProviders_cons_filter rest o s w hf hc
  · intro ctx env fuel fontId nid ws provs p f b pws henv hp hf hc hfont
    rw [convert_font_succ] at hfont
    obtain ⟨provs2, O, S, W, henv2, hb, hnid, hws⟩ := convert_font_step_inv hfont
    have hpp : provs2 = provs := by
      rw [henv] at henv2
      exact (Option.some.inj henv2).symm
    rw [hpp] at hb
    obtain ⟨r, ws2, hc2, hwsub, hplace⟩ := bucketProviders_mem provs [] [] [] O S W p hb hp
    have heq := hc2.symm.trans hc
    have hr : r = some b := congrArg Prod.fst (Except.ok.inj heq)
    subst hnid
    refine ⟨W, O ++ (mergeWhile S).map (fun m => OutProvider.mk (.space m) Option.none),
      hws, ?_⟩
    exact List.mem_append_left _ ((hplace b hr).1 f hf)

theorem c6_witness :
    convert_font c6Ctx c6Env 1 "f" = .ok ("f_s", [("f_s",
      [OutProvider.mk (OutBody.space [('a', JNum.jint 1)]) (some "keep"),
       OutProvider.mk (OutBody.space [('b', JNum.jint 2), ('c', JNum.jint 3)])
         Option.none])])
    ∧ ∃ ws0 outDef,
        ([("f_s",
          [OutProvider.mk (OutBody.space [('a', JNum.jint 1)]) (some "keep"),
           OutProvider.mk (OutBody.space [('b', JNum.jint 2), ('c', JNum.jint 3)])
             Option.none])] : WriteLog) = ws0 ++ [("f_s", outDef)] ∧
        OutProvider.mk
          (assure_integers (OutBody.space [('a', JNum.jfloat (1 * 1))]))
          (some "keep") ∈ outDef :=
  ⟨by with_unfolding_all rfl,
   c6_filter.2 c6Ctx c6Env 0 "f" "f_s" _ c6Provs
     ⟨SrcBody.space [('a', JNum.jint 1)], some "keep"⟩ "keep"
     (OutBody.space [('a', JNum.jfloat (1 * 1))]) []
     rfl
     (List.mem_cons_self (⟨SrcBody.space [('a', JNum.jint 1)], some "keep"⟩ : SrcProvider)
       ([⟨SrcBody.space [('b', JNum.jint 2)], Option.none⟩,
         ⟨SrcBody.space [('c', JNum.jint 3)], Option.none⟩] : List SrcProvider))
     rfl (by with_unfolding_all rfl) (by with_unfolding_all rfl)⟩

/-- C7: `convert_provider` returns null exactly for a unihex provider whose
mode is `none` or whose filtered advance map is empty; reference, space,
ttf and bitmap conversions are never null; a null result leaves the
buckets untouched (the provider is dropped, not emitted as an empty space
provider); and an unknown provider type raises a fatal error. -/
theorem c7_null_handling :
    (∀ (mode : UnihexMode) (factor : ℚ) (entries : List (List Char × List Char))
       (ovs : List SizeOverride),
      convert_unihex_provider mode factor entries ovs = .ok Option.none ↔
        (mode = .none ∨
          unihexAdvances mode factor (overrideTriples ovs) entries = .ok []))
  ∧ (∀ (ctx : Ctx) (recF : String → Except PyErr (String × WriteLog)) (b : SrcBody)
       (r : Option OutBody) (ws : WriteLog),
      convert_provider ctx recF b = .ok (r, ws) →
      (∀ entries ovs, b ≠ SrcBody.unihex entries ovs) → r ≠ Option.none)
  ∧ (∀ (ctx : Ctx) (recF : String → Except PyErr (String × WriteLog)) (p : SrcProvider)
       (rest : List SrcProvider) (o : List OutProvider) (s : List AdvMap) (w : WriteLog)
       (ws : WriteLog),
      convert_provider ctx recF p.body = .ok (Option.none, ws) →
      bucketProviders ctx recF (p :: rest) o s w =
        bucketProviders ctx recF rest o s (w ++ ws))
  ∧ (∀ (ctx : Ctx) (recF : String → Except PyErr (String × WriteLog)) (t : String),
      convert_provider ctx recF (SrcBody.unknown t) = .error (.unknownProvider t)) := by
  refine ⟨?_, ?_, ?_, ?_⟩
  · intro mode factor entries ovs
    constructor
    · intro h
      unfold convert_unihex_provider at h
      by_cases hm : mode = .none
      · exact Or.inl hm
      · rw [if_neg hm] at h
        cases ha : unihexAdvances mode factor (overrideTriples ovs) entries with
        | error e => rw [ha, exceptBind_error] at h; exact Except.noConfusion h
        | ok adv =>
          rw [ha, exceptBind_ok] at h
          by_cases he : adv.isEmpty
          · right
            rw [List.isEmpty_iff.mp he]
          · rw [if_neg he] at h
            exact absurd (Except.ok.inj h) (by simp)
    · intro h
      unfold convert_unihex_provider
      by_cases hm : mode = .none
      · rw [if_pos hm]; rfl
      · rw [if_neg hm]
        rcases h with h | h
        · exact absurd h hm
        · rw [h, exceptBind_ok]
          rfl
  · intro ctx recF b r ws h hnot
    cases b with
    | reference R =>
      obtain ⟨rid, _, hr⟩ := convert_provider_reference_inv h
      rw [hr]
      exact fun he => Option.noConfusion he
    | space advances =>
      have h2 : some (convert_space_provider ctx.widthFactor advances) = r :=
        congrArg Prod.fst (Except.ok.inj h)
      rw [← h2]
      exact fun he => Option.noConfusion he
    | ttf faceChars skip =>
      have h2 : some (convert_ttf_provider ctx.widthFactor faceChars skip) = r :=
        congrArg Prod.fst (Except.ok.inj h)
      rw [← h2]
      exact fun he => Option.noConfusion he
    | bitmap chars height img =>
      have hdef : convert_provider ctx recF (SrcBody.bitmap chars height img) =
          (convert_bitmap_provider ctx.widthFactor chars height img >>= fun b2 =>
            pure (some b2, ([] : WriteLog))) := rfl
      rw [hdef] at h
      cases hc : convert_bitmap_provider ctx.widthFactor chars height img with
      | error e => rw [hc, exceptBind_error] at h; exact Except.noConfusion h
      | ok body =>
        rw [hc, exceptBind_ok] at h
        have h2 : some body = r := congrArg Prod.fst (Except.ok.inj h)
        rw [← h2]
        exact fun he => Option.noConfusion he
    | unihex entries ovs => exact absurd rfl (hnot entries ovs)
    | unknown t => exact Except.noConfusion h
  · intro ctx recF p rest o s w ws h
    exact bucketProviders_cons_none rest o s w h
  · intro ctx recF t
    rfl

theorem c7_witness :
    (convert_unihex_provider UnihexMode.none 1 [("41".toList, "0018001800180018".toList)] [] =
      .ok Option.none ↔
      (UnihexMode.none = .none ∨
        unihexAdvances UnihexMode.none 1 (overrideTriples []) [("41".toList, "0018001800180018".toList)] = .ok []))
    ∧ convert_unihex_provider UnihexMode.none 1 [("41".toList, "0018001800180018".toList)] [] =
        .ok Option.none
    ∧ (SrcBody.space [('a', JNum.jint 1)] ≠ SrcBody.unihex [] [] →
        (Option.some (convert_space_provider 1 [('a', JNum.jint 1)]) : Option OutBody) ≠
          Option.none) := by
  refine ⟨c7_null_handling.1 UnihexMode.none 1 [("41".toList, "0018001800180018".toList)] [], by with_unfolding_all rfl, ?_⟩
  intro _
  exact c7_null_handling.2.1 ⟨"", 1, UnihexMode.none⟩ (fun _ => .error PyErr.fuelOut)
    (SrcBody.space [('a', JNum.jint 1)])
    (some (convert_space_provider 1 [('a', JNum.jint 1)])) []
    (by with_unfolding_all rfl)
    (fun entries ovs he => SrcBody.noConfusion he)

/-- C8: `convert_font` returns `font_id ++ suffix`; converting a reference
provider runs the full conversion of the referenced font, whose own
definition (`R ++ suffix`) is persisted before the referencing font's final
write; and the converted provider is a reference provider with id
`R ++ suffix`, never null. -/
theorem c8_reference :
    (∀ (ctx : Ctx) (env : FontEnv) (fuel : Nat) (fontId nid : String) (ws : WriteLog),
      convert_font ctx env fuel fontId = .ok (nid, ws) →
      nid = fontId ++ ctx.suffix ∧ ∃ ws0 outDef, ws = ws0 ++ [(nid, outDef)])
  ∧ (∀ (ctx : Ctx) (recF : String → Except PyErr (String × WriteLog)) (R rid : String)
       (rlog : WriteLog), recF R = .ok (rid, rlog) →
      convert_provider ctx recF (SrcBody.reference R) = .ok (some (.reference rid), rlog))
  ∧ (∀ (ctx : Ctx) (env : FontEnv) (fuel : Nat) (fontId nid : String) (ws : WriteLog)
       (provs : List SrcProvider) (p : SrcProvider) (R : String),
      env fontId = some provs → p ∈ provs → p.body = SrcBody.reference R →
      convert_font ctx env (fuel + 1) fontId = .ok (nid, ws) →
      ∃ ws0 outDef rdef, ws = ws0 ++ [(nid, outDef)] ∧ (R ++ ctx.suffix, rdef) ∈ ws0 ∧
        ∃ fopt, OutProvider.mk (OutBody.reference (R ++ ctx.suffix)) fopt ∈ outDef) := by
  have part1 : ∀ (ctx : Ctx) (env : FontEnv) (fuel : Nat) (fontId nid : String)
      (ws : WriteLog),
      convert_font ctx env fuel fontId = .ok (nid, ws) →
      nid = fontId ++ ctx.suffix ∧ ∃ ws0 outDef, ws = ws0 ++ [(nid, outDef)] := by
    intro ctx env fuel fontId nid ws h
    cases fuel with
    | zero => exact Except.noConfusion h
    | succ fuel =>
      rw [convert_font_succ] at h
      obtain ⟨provs, O, S, W, _, _, hnid, hws⟩ := convert_font_step_inv h
      subst hnid
      exact ⟨rfl, W, _, hws⟩
  refine ⟨part1, ?_, ?_⟩
  · intro ctx recF R rid rlog h
    have hdef : convert_provider ctx recF (SrcBody.reference R) =
        (recF R >>= fun r2 => pure (some (.reference r2.1), r2.2)) := rfl
    rw [hdef, h, exceptBind_ok]
    rfl
  · intro ctx env fuel fontId nid ws provs p R henv hp hbody hfont
    rw [convert_font_succ] at hfont
    obtain ⟨provs2, O, S, W, henv2, hb, hnid, hws⟩ := convert_font_step_inv hfont
    have hpp : provs2 = provs := by
      rw [henv] at henv2
      exact (Option.some.inj henv2).symm
    rw [hpp] at hb
    obtain ⟨r, ws2, hc2, hwsub, hplace⟩ := bucketProviders_mem provs [] [] [] O S W p hb hp
    rw [hbody] at hc2
    obtain ⟨rid, hrec, hr⟩ := convert_provider_reference_inv hc2
    obtain ⟨hrid, rws0, rdef, hrlog⟩ := part1 ctx env fuel R rid ws2 hrec
    subst hrid
    subst hnid
    refine ⟨W, O ++ (mergeWhile S).map (fun m => OutProvider.mk (.space m) Option.none),
      rdef, hws, ?_, ?_⟩
    · refine hwsub (R ++ ctx.suffix, rdef) ?_
      rw [hrlog]
      exact List.mem_append_right _ (List.mem_singleton.mpr rfl)
    · cases hf : p.filter with
      | some f =>
        exact ⟨some f, List.mem_append_left _ ((hplace _ hr).1 f hf)⟩
      | none =>
        exact ⟨Option.none,
          List.mem_append_left _ (((hplace _ hr).2 hf).2 (R ++ ctx.suffix) rfl)⟩

theorem c8_witness :
    (c8Env "base" = some [⟨SrcBody.reference "other", Option.none⟩])
    ∧ convert_font c8Ctx c8Env 2 "base" = .ok ("base_sp",
        [("other_sp", [OutProvider.mk (OutBody.space [('a', JNum.jint 1)]) Option.none]),
         ("base_sp", [OutProvider.mk (OutBody.reference "other_sp") Option.none])])
    ∧ ∃ ws0 outDef rdef,
        ([("other_sp", [OutProvider.mk (OutBody.space [('a', JNum.jint 1)]) Option.none]),
          ("base_sp", [OutProvider.mk (OutBody.reference "other_sp") Option.none])] :
          WriteLog) = ws0 ++ [("base_sp", outDef)] ∧
        ("other" ++ c8Ctx.suffix, rdef) ∈ ws0 ∧
        ∃ fopt, OutProvider.mk (OutBody.reference ("other" ++ c8Ctx.suffix)) fopt ∈ outDef :=
  ⟨rfl, by with_unfolding_all rfl,
   c8_reference.2.2 c8Ctx c8Env 1 "base" "base_sp" _
     [⟨SrcBody.reference "other", Option.none⟩]
     ⟨SrcBody.reference "other", Option.none⟩ "other"
     rfl (List.mem_singleton.mpr rfl) rfl (by with_unfolding_all rfl)⟩

theorem find_rev_range (p : Nat → Bool) : ∀ (n : Nat),
    ((List.range n).reverse.find? p = Option.none ∧ ∀ i, i < n → p i = false) ∨
    (∃ i, i < n ∧ p i = true ∧ (List.range n).reverse.find? p = some i ∧
      ∀ j, j < n → p j = true → j ≤ i) := by
  intro n
  induction n with
  | zero => exact Or.inl ⟨rfl, fun i hi => absurd hi (Nat.not_lt_zero i)⟩
  | succ n ih =>
    have hrev : (List.range (n + 1)).reverse = n :: (List.range n).reverse := by
      rw [List.range_succ, List.reverse_append]
      rfl
    cases hp : p n with
    | true =>
      right
      refine ⟨n, Nat.lt_succ_self n, hp, ?_, ?_⟩
      · rw [hrev, List.find?_cons_of_pos _ hp]
      · intro j hj _
        omega
    | false =>
      rcases ih with ⟨hn, hall⟩ | ⟨i, hi, hpi, hfind, hmax⟩
      · left
        refine ⟨?_, ?_⟩
        · rw [hrev, List.find?_cons_of_neg _ (by simp [hp]), hn]
        · intro i hi
          rcases Nat.lt_succ_iff_lt_or_eq.mp hi with h | h
          · exact hall i h
          · rw [h]
            exact hp
      · right
        refine ⟨i, Nat.lt_succ_of_lt hi, hpi, ?_, ?_⟩
        · rw [hrev, List.find?_cons_of_neg _ (by simp [hp]), hfind]
        · intro j hj hpj
          rcases Nat.lt_succ_iff_lt_or_eq.mp hj with h | h
          · exact hmax j h hpj
          · rw [h] at hpj
            rw [hpj] at hp
            exact absurd hp (by simp)

/-- C4: for a glyph cell holding a character outside NUL and space, the
emitted advance is `(trunc(0.5 + w * height / cell_height) + 1) * factor`,
where the cell's ink width `w` is `i + 1` for the largest column offset `i`
whose column contains a pixel of non-zero alpha (a column has ink iff some
pixel of its vertical run does), and `w = 0` when no column has ink; in
particular ink spanning columns 0..4 with cell height equal to the logical
height and factor 1 yields advance 6. -/
theorem c4_bitmap_advance :
    (∀ (img : Img) (x y h : Nat),
      scan_bitmap_col img x y h = true ↔ ∃ i, i < h ∧ img.alpha x (y + i) ≠ 0)
  ∧ (∀ (img : Img) (cx cy cw ch : Nat),
      (findInkWidth img cx cy cw ch = 0 ∧
        ∀ i, i < cw → scan_bitmap_col img (cx + i) cy ch = false) ∨
      (∃ i, i < cw ∧ scan_bitmap_col img (cx + i) cy ch = true ∧
        findInkWidth img cx cy cw ch = i + 1 ∧
        ∀ j, j < cw → scan_bitmap_col img (cx + j) cy ch = true → j ≤ i))
  ∧ (∀ (factor : ℚ) (img : Img) (cx cy cw ch : Nat) (height : ℤ),
      bitmapCellAdvance factor img cx cy cw ch height =
        ((pyTrunc (1/2 + (findInkWidth img cx cy cw ch : ℚ) * (height : ℚ) / (ch : ℚ)) : ℚ)
          + 1) * factor)
  ∧ convert_bitmap_provider 1 [['A']] 8 ⟨8, 8, fun x _ => if x ≤ 4 then 1 else 0⟩ =
      .ok (.space [('A', JNum.jfloat 6)]) := by
  refine ⟨?_, ?_, fun _ _ _ _ _ _ _ => rfl, by with_unfolding_all rfl⟩
  · intro img x y h
    rw [scan_bitmap_col, List.any_eq_true]
    constructor
    · intro ⟨i, hi, hne⟩
      exact ⟨i, List.mem_range.mp hi, by simpa using hne⟩
    · intro ⟨i, hi, hne⟩
      exact ⟨i, List.mem_range.mpr hi, by simpa using hne⟩
  · intro img cx cy cw ch
    have h := find_rev_range (fun i => scan_bitmap_col img (cx + i) cy ch) cw
    unfold findInkWidth
    rcases h with ⟨hfind, hall⟩ | ⟨i, hi, hpi, hfind, hmax⟩
    · left
      rw [hfind]
      exact ⟨rfl, hall⟩
    · right
      exact ⟨i, hi, hpi, by rw [hfind], hmax⟩

theorem exceptMapM_cons_inv {α β : Type _} {f : α → Except PyErr β} {e : α}
    {es : List α} {v : List β} (h : (e :: es).mapM f = .ok v) :
    ∃ c cs, f e = .ok c ∧ es.mapM f = .ok cs ∧ v = c :: cs := by
  rw [List.mapM_cons] at h
  cases hc : f e with
  | error err => rw [hc, exceptBind_error] at h; exact Except.noConfusion h
  | ok c =>
    rw [hc, exceptBind_ok] at h
    cases hcs : es.mapM f with
    | error err => rw [hcs, exceptBind_error] at h; exact Except.noConfusion h
    | ok cs =>
      rw [hcs, exceptBind_ok] at h
      exact ⟨c, cs, rfl, rfl, (Except.ok.inj h).symm⟩

theorem unihexAdvances_fold {mode : UnihexMode} {factor : ℚ}
    {triples : List (Nat × Nat × ℤ)} :
    ∀ (entries : List (List Char × List Char)) (cs : List (Option (Char × JNum)))
      (m0 : AdvMap),
    entries.mapM (unihexEntryContrib mode factor triples) = .ok cs →
    entries.foldlM (unihexStep mode factor triples) m0 =
      .ok ((cs.filterMap id).foldl (fun m kv => setKey m kv.1 kv.2) m0) := by
  intro entries
  induction entries with
  | nil =>
    intro cs m0 h
    rw [List.mapM_nil] at h
    have hcs : ([] : List (Option (Char × JNum))) = cs := Except.ok.inj h
    rw [← hcs]
    rfl
  | cons e es ih =>
    intro cs m0 h
    obtain ⟨c, cs2, hc, hcs, hv⟩ := exceptMapM_cons_inv h
    subst hv
    rw [List.foldlM_cons]
    have hstep : unihexStep mode factor triples m0 e =
        (unihexEntryContrib mode factor triples e >>= fun c2 =>
          match c2 with
          | Option.none => pure m0
          | some kv => pure (setKey m0 kv.1 kv.2)) := rfl
    rw [hstep, hc, exceptBind_ok]
    cases c with
    | none => exact ih cs2 m0 hcs
    | some kv => exact ih cs2 (setKey m0 kv.1 kv.2) hcs

theorem bitmapCellContrib_skip {factor : ℚ} {img : Img} {charWidth charHeight : Nat}
    {height : ℤ} {y : Nat} {xc : Nat × Char}
    (h1 : xc.2 = Char.ofNat 0 ∨ xc.2 = ' ') :
    bitmapCellContrib factor img charWidth charHeight height y xc.1 xc.2 =
      Option.none := by
  unfold bitmapCellContrib
  rw [if_pos h1]

theorem bitmapCellContrib_keep {factor : ℚ} {img : Img} {charWidth charHeight : Nat}
    {height : ℤ} {y : Nat} {xc : Nat × Char}
    (h1 : ¬(xc.2 = Char.ofNat 0 ∨ xc.2 = ' ')) :
    bitmapCellContrib factor img charWidth charHeight height y xc.1 xc.2 =
      some (xc.2, JNum.jfloat (bitmapCellAdvance factor img (xc.1 * charWidth)
        (y * charHeight) charWidth charHeight height)) := by
  unfold bitmapCellContrib
  rw [if_neg h1]

theorem bitmap_inner_fold {factor : ℚ} {img : Img} {charWidth charHeight : Nat}
    {height : ℤ} {y : Nat} :
    ∀ (l : List (Nat × Char)) (m0 m1 : AdvMap),
    l.foldlM (bitmapCellStep factor img charWidth charHeight height y) m0 = .ok m1 →
    m1 = (l.filterMap (fun xchar =>
        bitmapCellContrib factor img charWidth charHeight height y xchar.1 xchar.2)).foldl
      (fun m kv => setKey m kv.1 kv.2) m0 := by
  intro l
  induction l with
  | nil =>
    intro m0 m1 h
    rw [List.foldlM_nil] at h
    exact (Except.ok.inj h).symm
  | cons xc l ih =>
    intro m0 m1 h
    rw [List.foldlM_cons] at h
    by_cases h1 : xc.2 = Char.ofNat 0 ∨ xc.2 = ' '
    · rw [show bitmapCellStep factor img charWidth charHeight height y m0 xc = pure m0 by
        unfold bitmapCellStep; rw [if_pos h1], exceptBind_pure] at h
      rw [List.filterMap_cons, bitmapCellContrib_skip h1]
      exact ih m0 m1 h
    · by_cases h2 : charHeight = 0
      · rw [show bitmapCellStep factor img charWidth charHeight height y m0 xc =
            throw PyErr.zeroDivision by
          unfold bitmapCellStep; rw [if_neg h1, if_pos h2], exceptBind_throw] at h
        exact Except.noConfusion h
      · rw [show bitmapCellStep factor img charWidth charHeight height y m0 xc =
            pure (setKey m0 xc.2 (JNum.jfloat (bitmapCellAdvance factor img
              (xc.1 * charWidth) (y * charHeight) charWidth charHeight height))) by
          unfold bitmapCellStep; rw [if_neg h1, if_neg h2], exceptBind_pure] at h
        rw [List.filterMap_cons, bitmapCellContrib_keep h1]
        exact ih _ m1 h

theorem bitmap_outer_fold {factor : ℚ} {chars : List (List Char)} {height : ℤ}
    {img : Img} :
    ∀ (rows : List (Nat × List Char)) (m0 m1 : AdvMap),
    rows.foldlM (bitmapRowStep factor chars height img) m0 = .ok m1 →
    m1 = (rows.flatMap (fun yline => yline.2.enum.filterMap (fun xchar =>
        bitmapCellContrib factor img (img.width / yline.2.length)
          (img.height / chars.length) height yline.1 xchar.1 xchar.2))).foldl
      (fun m kv => setKey m kv.1 kv.2) m0 := by
  intro rows
  induction rows with
  | nil =>
    intro m0 m1 h
    rw [List.foldlM_nil] at h
    exact (Except.ok.inj h).symm
  | cons row rows ih =>
    intro m0 m1 h
    rw [List.foldlM_cons] at h
    cases hs : bitmapRowStep factor chars height img m0 row with
    | error e => rw [hs, exceptBind_error] at h; exact Except.noConfusion h
    | ok m2 =>
      rw [hs, exceptBind_ok] at h
      unfold bitmapRowStep at hs
      by_cases hlen : row.2.length = 0
      · rw [if_pos hlen] at hs
        exact Except.noConfusion hs
      · rw [if_neg hlen] at hs
        have hm2 := bitmap_inner_fold row.2.enum m0 m2 hs
        rw [List.flatMap_cons, List.foldl_append, ← hm2]
        exact ih m2 m1 h

/-- C10: when the same character occurs several times among one provider's
sources — several cells of a bitmap glyph grid in row-major order, or
several lines of a unihex hex file in file order — the converted advance map
has exactly one entry for it (its keys are duplicate-free) holding the
advance of the last occurrence visited. -/
theorem c10_last_wins :
    (∀ (mode : UnihexMode) (factor : ℚ) (triples : List (Nat × Nat × ℤ))
       (entries : List (List Char × List Char)) (cs : List (Option (Char × JNum))),
      entries.mapM (unihexEntryContrib mode factor triples) = .ok cs →
      unihexAdvances mode factor triples entries =
        .ok ((cs.filterMap id).foldl (fun m kv => setKey m kv.1 kv.2) []) ∧
      (keysOf ((cs.filterMap id).foldl (fun m kv => setKey m kv.1 kv.2) [])).Nodup ∧
      (∀ k, lookupAdv ((cs.filterMap id).foldl (fun m kv => setKey m kv.1 kv.2) []) k =
        (match ((cs.filterMap id).filter (fun kv => kv.1 == k)).getLast? with
         | some kv => some kv.2
         | Option.none => Option.none)))
  ∧ (∀ (factor : ℚ) (chars : List (List Char)) (height : ℤ) (img : Img) (m : AdvMap),
      convert_bitmap_provider factor chars height img = .ok (.space m) →
      m = (bitmapContribs factor chars height img).foldl
          (fun m kv => setKey m kv.1 kv.2) [] ∧
      (keysOf m).Nodup ∧
      (∀ k, lookupAdv m k =
        (match ((bitmapContribs factor chars height img).filter
            (fun kv => kv.1 == k)).getLast? with
         | some kv => some kv.2
         | Option.none => Option.none))) := by
  constructor
  · intro mode factor triples entries cs h
    refine ⟨unihexAdvances_fold entries cs [] h, nodup_keysOf_foldl_setKey _, ?_⟩
    exact fun k => lookupAdv_foldl_setKey (cs.filterMap id) [] k
  · intro factor chars height img m hconv
    obtain ⟨adv, hadv, hfold⟩ := convert_bitmap_provider_inv hconv
    have hm : adv = m := (OutBody.space.inj hadv).symm
    subst hm
    have hfl := bitmap_outer_fold chars.enum [] adv hfold
    refine ⟨hfl, ?_, ?_⟩
    · rw [hfl]
      exact nodup_keysOf_foldl_setKey _
    · intro k
      rw [hfl]
      exact lookupAdv_foldl_setKey _ [] k

theorem c10_witness :
    ([("41".toList, "00000000000000180000000000000000".toList),
      ("41".toList, "000000000000007E0000000000000000".toList)].mapM
        (unihexEntryContrib UnihexMode.all 1 []) =
      .ok [some ('A', JNum.jfloat 2), some ('A', JNum.jfloat 4)])
    ∧ unihexAdvances UnihexMode.all 1 []
        [("41".toList, "00000000000000180000000000000000".toList),
         ("41".toList, "000000000000007E0000000000000000".toList)] =
        .ok [('A', JNum.jfloat 4)]
    ∧ lookupAdv [('A', JNum.jfloat 4)] 'A' = some (JNum.jfloat 4) := by
  refine ⟨by with_unfolding_all rfl, ?_, by with_unfolding_all rfl⟩
  have h := (c10_last_wins.1 UnihexMode.all 1 []
    [("41".toList, "00000000000000180000000000000000".toList),
     ("41".toList, "000000000000007E0000000000000000".toList)]
    [some ('A', JNum.jfloat 2), some ('A', JNum.jfloat 4)]
    (by with_unfolding_all rfl)).1
  rw [h]
  with_unfolding_all rfl

theorem bitLengthAux_zero : ∀ (f : Nat), bitLengthAux f 0 = 0 := by
  intro f
  cases f with
  | zero => rfl
  | succ g => rfl

theorem bitLengthAux_congr : ∀ (f1 : Nat) {n f2 : Nat}, n ≤ f1 → n ≤ f2 →
    bitLengthAux f1 n = bitLengthAux f2 n := by
  intro f1
  induction f1 with
  | zero =>
    intro n f2 h1 _
    rw [Nat.le_zero.mp h1, bitLengthAux_zero, bitLengthAux_zero]
  | succ g1 ih =>
    intro n f2 h1 h2
    cases n with
    | zero => rw [bitLengthAux_zero, bitLengthAux_zero]
    | succ m =>
      cases f2 with
      | zero => omega
      | succ g2 =>
        show (if m + 1 = 0 then 0 else bitLengthAux g1 ((m + 1) / 2) + 1) =
          (if m + 1 = 0 then 0 else bitLengthAux g2 ((m + 1) / 2) + 1)
        rw [if_neg (Nat.succ_ne_zero m), if_neg (Nat.succ_ne_zero m),
          @ih ((m + 1) / 2) g2 (by omega) (by omega)]

theorem bitLength_rec {n : Nat} (hn : n ≠ 0) :
    bitLength n = bitLength (n / 2) + 1 := by
  cases n with
  | zero => exact absurd rfl hn
  | succ m =>
    show bitLengthAux (m + 1) (m + 1) = bitLengthAux ((m + 1) / 2) ((m + 1) / 2) + 1
    rw [show bitLengthAux (m + 1) (m + 1) =
      (if m + 1 = 0 then 0 else bitLengthAux m ((m + 1) / 2) + 1) from rfl,
      if_neg (Nat.succ_ne_zero m),
      bitLengthAux_congr m (by omega) (le_refl _)]

theorem bitLength_le_of_lt_two_pow : ∀ (k v : Nat), v < 2 ^ k → bitLength v ≤ k := by
  intro k
  induction k with
  | zero =>
    intro v hv
    have : v = 0 := by omega
    rw [this]
    exact le_refl 0
  | succ k ih =>
    intro v hv
    by_cases h0 : v = 0
    · rw [h0]
      show (0 : Nat) ≤ k + 1
      omega
    · rw [bitLength_rec h0]
      have hlt : v / 2 < 2 ^ k := by
        rw [Nat.div_lt_iff_lt_mul (by norm_num : (0 : Nat) < 2)]
        rw [pow_succ] at hv
        exact hv
      have := ih (v / 2) hlt
      omega

theorem bitLength_pos {n : Nat} (hn : n ≠ 0) : 1 ≤ bitLength n := by
  rw [bitLength_rec hn]
  omega

theorem lowBitLengthAux_zero : ∀ (f : Nat), lowBitLengthAux f 0 = 0 := by
  intro f
  cases f with
  | zero => rfl
  | succ g => rfl

theorem lowBitLengthAux_congr : ∀ (f1 : Nat) {n f2 : Nat}, n ≤ f1 → n ≤ f2 →
    lowBitLengthAux f1 n = lowBitLengthAux f2 n := by
  intro f1
  induction f1 with
  | zero =>
    intro n f2 h1 _
    rw [Nat.le_zero.mp h1, lowBitLengthAux_zero, lowBitLengthAux_zero]
  | succ g1 ih =>
    intro n f2 h1 h2
    cases n with
    | zero => rw [lowBitLengthAux_zero, lowBitLengthAux_zero]
    | succ m =>
      cases f2 with
      | zero => omega
      | succ g2 =>
        show (if m + 1 = 0 then 0 else if (m + 1) % 2 = 1 then 1
            else lowBitLengthAux g1 ((m + 1) / 2) + 1) =
          (if m + 1 = 0 then 0 else if (m + 1) % 2 = 1 then 1
            else lowBitLengthAux g2 ((m + 1) / 2) + 1)
        rw [if_neg (Nat.succ_ne_zero m), if_neg (Nat.succ_ne_zero m)]
        by_cases hm : (m + 1) % 2 = 1
        · rw [if_pos hm, if_pos hm]
        · rw [if_neg hm, if_neg hm, @ih ((m + 1) / 2) g2 (by omega) (by omega)]

theorem lowBitLength_odd {n : Nat} (hn : n % 2 = 1) : lowBitLength n = 1 := by
  cases n with
  | zero => simp at hn
  | succ m =>
    show lowBitLengthAux (m + 1) (m + 1) = 1
    rw [show lowBitLengthAux (m + 1) (m + 1) =
      (if m + 1 = 0 then 0 else if (m + 1) % 2 = 1 then 1
        else lowBitLengthAux m ((m + 1) / 2) + 1) from rfl,
      if_neg (Nat.succ_ne_zero m), if_pos hn]

theorem lowBitLength_even_rec {n : Nat} (hn : n ≠ 0) (he : ¬n % 2 = 1) :
    lowBitLength n = lowBitLength (n / 2) + 1 := by
  cases n with
  | zero => exact absurd rfl hn
  | succ m =>
    show lowBitLengthAux (m + 1) (m + 1) = lowBitLengthAux ((m + 1) / 2) ((m + 1) / 2) + 1
    rw [show lowBitLengthAux (m + 1) (m + 1) =
      (if m + 1 = 0 then 0 else if (m + 1) % 2 = 1 then 1
        else lowBitLengthAux m ((m + 1) / 2) + 1) from rfl,
      if_neg (Nat.succ_ne_zero m), if_neg he,
      lowBitLengthAux_congr m (by omega) (le_refl _)]

theorem lowBitLength_le_bitLength : ∀ (n : Nat), lowBitLength n ≤ bitLength n := by
  intro n
  induction n using Nat.strong_induction_on with
  | _ n ih =>
    by_cases h0 : n = 0
    · rw [h0]
      exact le_refl 0
    · by_cases hodd : n % 2 = 1
      · rw [lowBitLength_odd hodd]
        exact bitLength_pos h0
      · rw [lowBitLength_even_rec h0 hodd, bitLength_rec h0]
        have := ih (n / 2) (by omega)
        omega

theorem hexDigitVal_le {c : Char} {d : Nat} (h : hexDigitVal c = some d) : d ≤ 15 := by
  unfold hexDigitVal at h
  split at h
  · injection h with h2; omega
  split at h
  · injection h with h2; omega
  split at h
  · injection h with h2; omega
  · exact absurd h (by simp)

theorem hexfold_lt : ∀ (s : List Char) (acc v : Nat),
    s.foldlM (fun acc c => (hexDigitVal c).map (fun d => 16 * acc + d)) acc = some v →
    v < (acc + 1) * 16 ^ s.length := by
  intro s
  induction s with
  | nil =>
    intro acc v h
    rw [List.foldlM_nil] at h
    have hav : acc = v := Option.some.inj h
    rw [← hav]
    simp
  | cons c s ih =>
    intro acc v h
    rw [List.foldlM_cons] at h
    cases hd : hexDigitVal c with
    | none =>
      rw [hd] at h
      exact Option.noConfusion h
    | some d =>
      rw [hd] at h
      have hb := ih (16 * acc + d) v h
      have hd15 := hexDigitVal_le hd
      have h1 : 16 * acc + d + 1 ≤ 16 * (acc + 1) := by omega
      have h2 : (16 * acc + d + 1) * 16 ^ s.length ≤ 16 * (acc + 1) * 16 ^ s.length :=
        Nat.mul_le_mul_right _ h1
      have h3 : 16 * (acc + 1) * 16 ^ s.length = (acc + 1) * 16 ^ (s.length + 1) := by
        ring
      show v < (acc + 1) * 16 ^ (s.length + 1)
      omega

theorem hexParse_lt {s : List Char} {v : Nat} (h : hexParse s = some v) :
    v < 16 ^ s.length := by
  unfold hexParse at h
  by_cases he : s.isEmpty
  · rw [if_pos he] at h
    exact Option.noConfusion h
  · rw [if_neg he] at h
    have := hexfold_lt s 0 v h
    simpa using this

theorem hexfold_isSome : ∀ (s : List Char) (acc : Nat),
    (∀ c ∈ s, (hexDigitVal c).isSome = true) →
    ∃ v, s.foldlM (fun acc c => (hexDigitVal c).map (fun d => 16 * acc + d)) acc =
      some v := by
  intro s
  induction s with
  | nil => exact fun acc _ => ⟨acc, rfl⟩
  | cons c s ih =>
    intro acc h
    obtain ⟨d, hd⟩ := Option.isSome_iff_exists.mp (h c (List.mem_cons_self _ _))
    obtain ⟨v, hv⟩ := ih (16 * acc + d) (fun c2 hc => h c2 (List.mem_cons_of_mem _ hc))
    refine ⟨v, ?_⟩
    rw [List.foldlM_cons, hd]
    exact hv

theorem hexParse_isSome {s : List Char} (hne : s ≠ [])
    (hd : ∀ c ∈ s, (hexDigitVal c).isSome = true) : ∃ v, hexParse s = some v := by
  unfold hexParse
  rw [if_neg (by simp [List.isEmpty_iff, hne])]
  exact hexfold_isSome s 0 hd

theorem hexParseE_ok {s : List Char} {v : Nat} (h : hexParse s = some v) :
    hexParseE s = .ok v := by
  unfold hexParseE
  rw [h]

theorem hexParseE_ok_inv {s : List Char} {v : Nat} (h : hexParseE s = .ok v) :
    hexParse s = some v := by
  unfold hexParseE at h
  cases hp : hexParse s with
  | none => rw [hp] at h; exact Except.noConfusion h
  | some w => rw [hp] at h; rw [Except.ok.inj h]

theorem exceptMapM_mem {α β : Type _} {f : α → Except PyErr β} :
    ∀ {l : List α} {ys : List β}, l.mapM f = .ok ys →
    ∀ y ∈ ys, ∃ x ∈ l, f x = .ok y := by
  intro l
  induction l with
  | nil =>
    intro ys h y hy
    rw [List.mapM_nil] at h
    rw [← Except.ok.inj h] at hy
    exact absurd hy (List.not_mem_nil y)
  | cons x xs ih =>
    intro ys h y hy
    obtain ⟨c, cs, hc, hcs, hv⟩ := exceptMapM_cons_inv h
    subst hv
    rcases List.mem_cons.mp hy with h1 | h1
    · exact ⟨x, List.mem_cons_self _ _, h1 ▸ hc⟩
    · obtain ⟨x2, hx2, hfx2⟩ := ih hcs y h1
      exact ⟨x2, List.mem_cons_of_mem _ hx2, hfx2⟩

theorem exceptMapM_isOk {α β : Type _} (f : α → Except PyErr β) :
    ∀ (l : List α), (∀ x ∈ l, ∃ v, f x = .ok v) → ∃ ys, l.mapM f = .ok ys := by
  intro l
  induction l with
  | nil => exact fun _ => ⟨[], rfl⟩
  | cons x xs ih =>
    intro h
    obtain ⟨v, hv⟩ := h x (List.mem_cons_self _ _)
    obtain ⟨ys, hys⟩ := ih (fun y hy => h y (List.mem_cons_of_mem _ hy))
    refine ⟨v :: ys, ?_⟩
    rw [List.mapM_cons, hv, exceptBind_ok, hys, exceptBind_ok]
    rfl

theorem minmax_foldl : ∀ (rows : List Nat) (a b : ℤ),
    rows.foldl (fun (mp : ℤ × ℤ) row =>
      if row = 0 then mp
      else (min (lowBitLength row : ℤ) mp.1, max (bitLength row : ℤ) mp.2)) (a, b) =
    ((rows.filter (fun r => r != 0)).foldl
        (fun acc row => min (lowBitLength row : ℤ) acc) a,
     (rows.filter (fun r => r != 0)).foldl
        (fun acc row => max (bitLength row : ℤ) acc) b) := by
  intro rows
  induction rows with
  | nil => intro a b; rfl
  | cons r rows ih =>
    intro a b
    rw [List.foldl_cons, List.filter_cons]
    by_cases hr : r = 0
    · rw [if_pos hr, if_neg (by simp [hr])]
      exact ih a b
    · rw [if_neg hr, if_pos (by simp [hr]), List.foldl_cons, List.foldl_cons]
      exact ih _ _

theorem foldl_min_facts (f : Nat → ℤ) : ∀ (l : List Nat) (a : ℤ),
    (l.foldl (fun acc x => min (f x) acc) a ≤ a)
    ∧ (∀ x ∈ l, l.foldl (fun acc x => min (f x) acc) a ≤ f x)
    ∧ (l.foldl (fun acc x => min (f x) acc) a = a ∨
       ∃ x ∈ l, l.foldl (fun acc x => min (f x) acc) a = f x) := by
  intro l
  induction l with
  | nil =>
    intro a
    exact ⟨le_refl a, fun x hx => absurd hx (List.not_mem_nil x), Or.inl rfl⟩
  | cons y l ih =>
    intro a
    rw [List.foldl_cons]
    obtain ⟨h1, h2, h3⟩ := ih (min (f y) a)
    refine ⟨le_trans h1 (min_le_right _ _), ?_, ?_⟩
    · intro x hx
      rcases List.mem_cons.mp hx with h | h
      · rw [h]
        exact le_trans h1 (min_le_left _ _)
      · exact h2 x h
    · rcases h3 with h | ⟨x, hx, he⟩
      · rcases le_total (f y) a with hle | hle
        · right
          exact ⟨y, List.mem_cons_self _ _, by rw [h, min_eq_left hle]⟩
        · left
          rw [h, min_eq_right hle]
      · right
        exact ⟨x, List.mem_cons_of_mem _ hx, he⟩

theorem foldl_max_facts (f : Nat → ℤ) : ∀ (l : List Nat) (a : ℤ),
    (a ≤ l.foldl (fun acc x => max (f x) acc) a)
    ∧ (∀ x ∈ l, f x ≤ l.foldl (fun acc x => max (f x) acc) a)
    ∧ (l.foldl (fun acc x => max (f x) acc) a = a ∨
       ∃ x ∈ l, l.foldl (fun acc x => max (f x) acc) a = f x) := by
  intro l
  induction l with
  | nil =>
    intro a
    exact ⟨le_refl a, fun x hx => absurd hx (List.not_mem_nil x), Or.inl rfl⟩
  | cons y l ih =>
    intro a
    rw [List.foldl_cons]
    obtain ⟨h1, h2, h3⟩ := ih (max (f y) a)
    refine ⟨le_trans (le_max_right _ _) h1, ?_, ?_⟩
    · intro x hx
      rcases List.mem_cons.mp hx with h | h
      · rw [h]
        exact le_trans (le_max_left _ _) h1
      · exact h2 x h
    · rcases h3 with h | ⟨x, hx, he⟩
      · rcases le_total (f y) a with hle | hle
        · left
          rw [h, max_eq_right hle]
        · right
          exact ⟨y, List.mem_cons_self _ _, by rw [h, max_eq_left hle]⟩
      · right
        exact ⟨x, List.mem_cons_of_mem _ hx, he⟩

theorem read_hex_bitmap_eq {img : List Char} {rows : List Nat}
    (h : (List.range 16).mapM (fun i =>
      hexParseE ((img.drop (i * (img.length / 16))).take (img.length / 16))) =
      .ok rows) :
    read_hex_bitmap img = .ok
      ((fun mm : ℤ × ℤ => if mm.2 = -1 then 0 else mm.2 - mm.1 + 1)
        (rows.foldl (fun (mp : ℤ × ℤ) row =>
          if row = 0 then mp
          else (min (lowBitLength row : ℤ) mp.1, max (bitLength row : ℤ) mp.2))
          (((img.length / 16 : Nat) * 4 : ℤ), (-1 : ℤ)))) := by
  rw [show read_hex_bitmap img = ((List.range 16).mapM (fun i =>
      hexParseE ((img.drop (i * (img.length / 16))).take (img.length / 16))) >>=
      fun rows => pure
        ((fun mm : ℤ × ℤ => if mm.2 = -1 then 0 else mm.2 - mm.1 + 1)
          (rows.foldl (fun (mp : ℤ × ℤ) row =>
            if row = 0 then mp
            else (min (lowBitLength row : ℤ) mp.1, max (bitLength row : ℤ) mp.2))
            (((img.length / 16 : Nat) * 4 : ℤ), (-1 : ℤ))))) from rfl]
  rw [h, exceptBind_ok]
  rfl

/-- C3: for a hexadecimal string encoding a 16-row bitmap (rows of
`length / 16` hex digits each), the decoded extent is `high - low + 1`,
where `high` is the maximum `bit_length(row)` over the non-zero rows and
`low` the minimum `bit_length(row & -row)` over the non-zero rows, and the
extent is `0` when all 16 rows are zero; in particular a bitmap whose only
non-zero row has value `0x18` yields extent 2. -/
theorem c3_hex_extent :
    (∀ (img : List Char) (r : Nat), img.length = 16 * r → 0 < r →
      (∀ c ∈ img, (hexDigitVal c).isSome = true) →
      ∃ rows : List Nat,
        (List.range 16).mapM (fun i => hexParseE ((img.drop (i * r)).take r)) =
          .ok rows ∧
        ((∀ row ∈ rows, row = 0) → read_hex_bitmap img = .ok 0) ∧
        (∀ row0 ∈ rows, row0 ≠ 0 →
          ∃ high low : ℤ,
            read_hex_bitmap img = .ok (high - low + 1) ∧
            (∃ row ∈ rows, row ≠ 0 ∧ high = (bitLength row : ℤ)) ∧
            (∀ row ∈ rows, row ≠ 0 → (bitLength row : ℤ) ≤ high) ∧
            (∃ row ∈ rows, row ≠ 0 ∧ low = (lowBitLength row : ℤ)) ∧
            (∀ row ∈ rows, row ≠ 0 → low ≤ (lowBitLength row : ℤ))))
  ∧ read_hex_bitmap "00000000000000180000000000000000".toList = .ok 2 := by
  refine ⟨?_, by with_unfolding_all rfl⟩
  intro img r himg hr hhex
  have hrl : img.length / 16 = r := by
    rw [himg]
    exact Nat.mul_div_cancel_left r (by norm_num)
  have hlenS : ∀ i, i < 16 → ((img.drop (i * r)).take r).length = r := by
    intro i hi
    have h1 : i * r ≤ 15 * r := Nat.mul_le_mul_right r (by omega)
    rw [List.length_take, List.length_drop, himg]
    exact Nat.min_eq_left (by omega)
  have hslice : ∀ i ∈ List.range 16,
      ∃ v, hexParseE ((img.drop (i * r)).take r) = .ok v := by
    intro i hi
    have hi16 := List.mem_range.mp hi
    have hne : (img.drop (i * r)).take r ≠ [] := by
      intro he
      have hl := hlenS i hi16
      rw [he] at hl
      simp at hl
      omega
    obtain ⟨v, hv⟩ := hexParse_isSome hne
      (fun c hc => hhex c (List.drop_subset _ _ (List.take_subset _ _ hc)))
    exact ⟨v, hexParseE_ok hv⟩
  obtain ⟨rows, hrows⟩ := exceptMapM_isOk _ (List.range 16) hslice
  have hrows2 : (List.range 16).mapM (fun i =>
      hexParseE ((img.drop (i * (img.length / 16))).take (img.length / 16))) =
      .ok rows := by
    rw [hrl]
    exact hrows
  have hbound : ∀ row ∈ rows, row < 2 ^ (4 * r) := by
    intro row hrow
    obtain ⟨i, hi, hfi⟩ := exceptMapM_mem hrows row hrow
    have hp := hexParseE_ok_inv hfi
    have hlt := hexParse_lt hp
    rw [hlenS i (List.mem_range.mp hi)] at hlt
    calc row < 16 ^ r := hlt
      _ = 2 ^ (4 * r) := by rw [show (16 : ℕ) = 2 ^ 4 from rfl, ← pow_mul]
  have hread := read_hex_bitmap_eq hrows2
  rw [minmax_foldl rows (((img.length / 16 : Nat) * 4 : ℤ)) (-1 : ℤ)] at hread
  refine ⟨rows, hrows, ?_, ?_⟩
  · intro hz
    have hfil : rows.filter (fun row => row != 0) = [] := by
      rw [List.filter_eq_nil_iff]
      intro a ha
      simp [hz a ha]
    rw [hfil] at hread
    rw [hread]
    rfl
  · intro row0 hrow0 hz0
    have hmem0 : row0 ∈ rows.filter (fun row => row != 0) :=
      List.mem_filter.mpr ⟨hrow0, by simp [hz0]⟩
    obtain ⟨hmin_le_a, hmin_le, hmin_attain⟩ :=
      foldl_min_facts (fun row => (lowBitLength row : ℤ))
        (rows.filter (fun row => row != 0)) (((img.length / 16 : Nat) * 4 : ℤ))
    obtain ⟨hmax_ge_b, hmax_ge, hmax_attain⟩ :=
      foldl_max_facts (fun row => (bitLength row : ℤ))
        (rows.filter (fun row => row != 0)) (-1 : ℤ)
    have hbit0 : (1 : ℤ) ≤ (bitLength row0 : ℤ) := by
      exact_mod_cast bitLength_pos hz0
    have hhig : (1 : ℤ) ≤ (rows.filter (fun row => row != 0)).foldl
        (fun acc row => max ((bitLength row : ℕ) : ℤ) acc) (-1 : ℤ) :=
      le_trans hbit0 (hmax_ge row0 hmem0)
    refine ⟨(rows.filter (fun row => row != 0)).foldl
        (fun acc row => max ((bitLength row : ℕ) : ℤ) acc) (-1 : ℤ),
      (rows.filter (fun row => row != 0)).foldl
        (fun acc row => min ((lowBitLength row : ℕ) : ℤ) acc)
        (((img.length / 16 : Nat) * 4 : ℤ)), ?_, ?_, ?_, ?_, ?_⟩
    · rw [hread]
      congr 1
      show (if (rows.filter (fun row => row != 0)).foldl
          (fun acc row => max ((bitLength row : ℕ) : ℤ) acc) (-1 : ℤ) = -1
        then (0 : ℤ) else _ - _ + 1) = _
      rw [if_neg (by omega)]
    · rcases hmax_attain with h | ⟨x, hx, he⟩
      · rw [h] at hhig
        omega
      · have hxmem := List.mem_filter.mp hx
        exact ⟨x, hxmem.1, by simpa using hxmem.2, he⟩
    · intro row hrow hz
      exact hmax_ge row (List.mem_filter.mpr ⟨hrow, by simp [hz]⟩)
    · rcases hmin_attain with h | ⟨x, hx, he⟩
      · have hl0 : (lowBitLength row0 : ℤ) ≤ ((img.length / 16 : Nat) * 4 : ℤ) := by
          have h1 : lowBitLength row0 ≤ bitLength row0 := lowBitLength_le_bitLength row0
          have h2 : bitLength row0 ≤ 4 * r :=
            bitLength_le_of_lt_two_pow (4 * r) row0 (hbound row0 hrow0)
          rw [hrl]
          push_cast
          omega
        have hle2 := hmin_le row0 hmem0
        have hge : (lowBitLength row0 : ℤ) ≤ (rows.filter (fun row => row != 0)).foldl
            (fun acc row => min ((lowBitLength row : ℕ) : ℤ) acc)
            (((img.length / 16 : Nat) * 4 : ℤ)) := by
          rw [h]
          exact hl0
        exact ⟨row0, hrow0, hz0, le_antisymm hle2 hge⟩
      · have hxmem := List.mem_filter.mp hx
        exact ⟨x, hxmem.1, by simpa using hxmem.2, he⟩
    · intro row hrow hz
      exact hmin_le row (List.mem_filter.mpr ⟨hrow, by simp [hz]⟩)

theorem c3_witness :
    "00000000000000180000000000000000".toList.length = 16 * 2
    ∧ (0 : Nat) < 2
    ∧ (∀ c ∈ "00000000000000180000000000000000".toList, (hexDigitVal c).isSome = true)
    ∧ ∃ rows : List Nat, (List.range 16).mapM (fun i =>
        hexParseE (("00000000000000180000000000000000".toList.drop (i * 2)).take 2)) =
        .ok rows :=
  ⟨by decide, by norm_num, by decide,
   match c3_hex_extent.1 "00000000000000180000000000000000".toList 2
     (by decide) (by norm_num) (by decide) with
   | ⟨rows, h1, _, _⟩ => ⟨rows, h1⟩⟩

/-- C2 counterexample: under mode `all_named`, the hex entry of codepoint
9731 (U+2603) decodes to a defined, non-empty glyph and matches no size
override, so the keep-predicate as the claim words it holds, yet the code
skips the line (`ok none`) and a provider holding only this line is dropped
entirely. -/
theorem c2_counterexample :
    allNamedClaimKeeps [] 9731 "000000000000007E0000000000000000".toList = true
    ∧ unihexEntryWidth UnihexMode.allNamed [] 9731
        "000000000000007E0000000000000000".toList = .ok Option.none
    ∧ convert_unihex_provider UnihexMode.allNamed 1
        [("2603".toList, "000000000000007E0000000000000000".toList)] [] =
        .ok Option.none :=
  ⟨by with_unfolding_all rfl, by with_unfolding_all rfl, by with_unfolding_all rfl⟩

theorem unihexEntryWidth_none_iff (mode : UnihexMode) (triples : List (Nat × Nat × ℤ))
    (code : Nat) (img : List Char) :
    unihexEntryWidth mode triples code img = .ok Option.none ↔
      ((mode = .ascii ∧ 256 < code) ∨
       (mode = .allNamed ∧ 256 < code ∧
         triples.find? (fun t => t.1 ≤ code && code ≤ t.2.1) = Option.none)) := by
  have hdef : unihexEntryWidth mode triples code img =
      (if mode = .ascii ∧ 256 < code then pure Option.none
       else match triples.find? (fun t => t.1 ≤ code && code ≤ t.2.1) with
       | some t => pure (some t.2.2)
       | Option.none =>
         if mode = .allNamed ∧ 256 < code then pure Option.none
         else (read_hex_bitmap img >>= fun w => pure (some w))) := rfl
  rw [hdef]
  by_cases h1 : mode = .ascii ∧ 256 < code
  · rw [if_pos h1]
    exact ⟨fun _ => Or.inl h1, fun _ => rfl⟩
  · rw [if_neg h1]
    cases hf : triples.find? (fun t => t.1 ≤ code && code ≤ t.2.1) with
    | some t =>
      constructor
      · intro h
        exact absurd (Except.ok.inj h) (by simp)
      · intro h
        rcases h with h | h
        · exact absurd h h1
        · exact Option.noConfusion h.2.2
    | none =>
      by_cases h2 : mode = .allNamed ∧ 256 < code
      · rw [if_pos h2]
        exact ⟨fun _ => Or.inr ⟨h2.1, h2.2, rfl⟩, fun _ => rfl⟩
      · rw [if_neg h2]
        constructor
        · intro h
          cases hr : read_hex_bitmap img with
          | error e => rw [hr, exceptBind_error] at h; exact Except.noConfusion h
          | ok w => rw [hr, exceptBind_ok] at h; exact absurd (Except.ok.inj h) (by simp)
        · intro h
          rcases h with h | h
          · exact absurd h h1
          · exact absurd ⟨h.1, h.2.1⟩ h2

/-- C2 (amended): a decoded hex line contributes according to the mode —
under `none` nothing is emitted; under `ascii` a codepoint is included iff
it is at most 256; under `all` every decoded entry is included; under
`all_named` a codepoint is included iff it is at most 256 or falls inside a
size-override range; a codepoint inside a size-override range gets that
range's fixed width (checked before the all_named skip), the override width
being `right - left + 1`, or 0 when both endpoint characters are codepoint
0; and every included entry's advance is
`(trunc(0.5 * width) + 1) * factor`. -/
theorem c2_unihex_modes :
    (∀ (factor : ℚ) (entries : List (List Char × List Char)) (ovs : List SizeOverride),
      convert_unihex_provider UnihexMode.none factor entries ovs = .ok Option.none)
  ∧ (∀ (triples : List (Nat × Nat × ℤ)) (code : Nat) (img : List Char),
      (unihexEntryWidth UnihexMode.ascii triples code img = .ok Option.none ↔
        256 < code))
  ∧ (∀ (triples : List (Nat × Nat × ℤ)) (code : Nat) (img : List Char),
      ¬(unihexEntryWidth UnihexMode.all triples code img = .ok Option.none))
  ∧ (∀ (triples : List (Nat × Nat × ℤ)) (code : Nat) (img : List Char),
      (unihexEntryWidth UnihexMode.allNamed triples code img = .ok Option.none ↔
        (256 < code ∧
          triples.find? (fun t => t.1 ≤ code && code ≤ t.2.1) = Option.none)))
  ∧ (∀ (mode : UnihexMode) (triples : List (Nat × Nat × ℤ)) (code : Nat)
       (img : List Char) (t : Nat × Nat × ℤ),
      (mode = UnihexMode.ascii → code ≤ 256) →
      triples.find? (fun t => t.1 ≤ code && code ≤ t.2.1) = some t →
      unihexEntryWidth mode triples code img = .ok (some t.2.2))
  ∧ (∀ ovs : List SizeOverride, overrideTriples ovs = ovs.map (fun o =>
      (o.fromChar.toNat, o.toChar.toNat,
        if o.fromChar.toNat = 0 ∧ o.toChar.toNat = 0 then 0
        else o.right - o.left + 1)))
  ∧ (∀ (mode : UnihexMode) (factor : ℚ) (triples : List (Nat × Nat × ℤ))
       (codeStr img : List Char) (code : Nat) (w : ℤ),
      hexParseE codeStr = .ok code →
      unihexEntryWidth mode triples code img = .ok (some w) →
      unihexEntryContrib mode factor triples (codeStr, img) =
        .ok (some (Char.ofNat code,
          JNum.jfloat (((pyTrunc ((1/2 : ℚ) * (w : ℚ)) : ℚ) + 1) * factor))))
  ∧ (∀ (mode : UnihexMode) (factor : ℚ) (triples : List (Nat × Nat × ℤ))
       (codeStr img : List Char) (code : Nat),
      hexParseE codeStr = .ok code →
      (unihexEntryContrib mode factor triples (codeStr, img) = .ok Option.none ↔
        unihexEntryWidth mode triples code img = .ok Option.none)) := by
  refine ⟨fun _ _ _ => rfl, ?_, ?_, ?_, ?_, fun _ => rfl, ?_, ?_⟩
  · intro triples code img
    rw [unihexEntryWidth_none_iff]
    simp
  · intro triples code img
    rw [unihexEntryWidth_none_iff]
    simp
  · intro triples code img
    rw [unihexEntryWidth_none_iff]
    simp
  · intro mode triples code img t hmode hfind
    have hdef : unihexEntryWidth mode triples code img =
        (if mode = .ascii ∧ 256 < code then pure Option.none
         else match triples.find? (fun t => t.1 ≤ code && code ≤ t.2.1) with
         | some t => pure (some t.2.2)
         | Option.none =>
           if mode = .allNamed ∧ 256 < code then pure Option.none
           else (read_hex_bitmap img >>= fun w => pure (some w))) := rfl
    rw [hdef, if_neg (fun hand => absurd (hmode hand.1) (by omega)), hfind]
    rfl
  · intro mode factor triples codeStr img code w h1 h2
    have hcdef : unihexEntryContrib mode factor triples (codeStr, img) =
        (hexParseE codeStr >>= fun code =>
          unihexEntryWidth mode triples code img >>= fun w? =>
          match w? with
          | Option.none => pure Option.none
          | some w =>
            pure (some (Char.ofNat code,
              JNum.jfloat (((pyTrunc ((1/2 : ℚ) * (w : ℚ)) : ℚ) + 1) * factor)))) := rfl
    rw [hcdef, h1, exceptBind_ok, h2, exceptBind_ok]
    rfl
  · intro mode factor triples codeStr img code h1
    have hcdef : unihexEntryContrib mode factor triples (codeStr, img) =
        (hexParseE codeStr >>= fun code =>
          unihexEntryWidth mode triples code img >>= fun w? =>
          match w? with
          | Option.none => pure Option.none
          | some w =>
            pure (some (Char.ofNat code,
              JNum.jfloat (((pyTrunc ((1/2 : ℚ) * (w : ℚ)) : ℚ) + 1) * factor)))) := rfl
    rw [hcdef, h1, exceptBind_ok]
    cases hw : unihexEntryWidth mode triples code img with
    | error e =>
      rw [exceptBind_error]
      exact ⟨fun h => Except.noConfusion h, fun h => Except.noConfusion h⟩
    | ok w? =>
      rw [exceptBind_ok]
      cases w? with
      | none => exact ⟨fun _ => rfl, fun _ => rfl⟩
      | some w =>
        constructor
        · intro h
          exact absurd (Except.ok.inj h) (by simp)
        · intro h
          exact absurd (Except.ok.inj h) (by simp)

theorem c2_witness :
    (unihexEntryWidth UnihexMode.ascii [] 65 "0018001800180018".toList = .ok Option.none ↔
      256 < 65)
    ∧ (unihexEntryWidth UnihexMode.ascii [] 9731 "0018001800180018".toList =
        .ok Option.none ↔ 256 < 9731)
    ∧ ¬(unihexEntryWidth UnihexMode.all [] 9731 "0018001800180018".toList =
        .ok Option.none)
    ∧ unihexEntryWidth UnihexMode.ascii [] 9731 "0018001800180018".toList =
        .ok Option.none :=
  ⟨c2_unihex_modes.2.1 [] 65 "0018001800180018".toList,
   c2_unihex_modes.2.1 [] 9731 "0018001800180018".toList,
   c2_unihex_modes.2.2.1 [] 9731 "0018001800180018".toList,
   (c2_unihex_modes.2.1 [] 9731 "0018001800180018".toList).mpr (by norm_num)⟩
